import Mathlib

/-!
Verification development for the watch_ha_control voice middleware.

This file gives a shallow embedding, in Lean 4, of the pure core of the
repository:

* `src/homeassistant.js`  — tokenizing, fuzzy entity scoring (`scoreMatch`),
  the search branch of `findEntities`, the scoring step of `resolveEntityId`,
  `getEntitySummary`, the guard logic of `callService`, and the single-flight
  control skeleton of `refreshStates`;
* `src/intentCache.js`    — the LRU-with-TTL `IntentCache`;
* `src/normalize.js`      — `normalizeUtterance` with its ordered regex
  substitutions;
* `src/voicePlan.js`      — `isCacheableToolCall`, `buildPlanFromToolUses`,
  `formatStateForSpeech`, `renderResponseFromToolResults`;
* `src/index.js`          — the model-response loop of `processVoiceCommand`.

Modelling conventions.  JavaScript strings are Lean `String`s / `List Char`;
the Unicode character classes of the regexes (`\p{L}`, `\p{N}`, `\s`, `\w`)
are modelled at ASCII granularity with `Char.isAlpha` / `Char.isDigit` /
the four ASCII whitespace characters, and `String.prototype.toLowerCase`
is modelled as ASCII case folding (`lowerC`); all inputs exercised by the
claims are ASCII.  JS truthiness on strings ("" is falsy) is `truthyS`;
absent / `undefined` fields are `Option`.  `Date.now()` is an explicit
`now : Nat` argument.  A JS `Map` is an association list in insertion
order (oldest first), which is exactly the iteration order the cache's
eviction loop relies on.  Regex global replacement is modelled by direct
left-to-right scanners over `List Char`; a `skip` counter stands for the
characters of a match that have already been consumed, so that every
function is structurally recursive and kernel-computable.
-/

namespace WatchHA

/-- ASCII model of the regex class `\s`. -/
def isWs (c : Char) : Bool :=
  c = ' ' || c = '\t' || c = '\n' || c = '\r'

/-- ASCII model of `\p{L}` (letters) and `\p{N}` (digits) combined. -/
def isAlnum (c : Char) : Bool :=
  c.isAlpha || c.isDigit

/-- JS regex word character `\w`, i.e. `[A-Za-z0-9_]`, used by `\b`. -/
def isWordChar (c : Char) : Bool :=
  isAlnum c || c = '_'

/-- ASCII model of `String.prototype.toLowerCase` on one character. -/
def lowerC (c : Char) : Char :=
  if 65 ≤ c.toNat && c.toNat ≤ 90 then Char.ofNat (c.toNat + 32) else c

/-- Lowercasing a character list. -/
def lowerL (l : List Char) : List Char :=
  l.map lowerC

/-- Substring test: JS `hay.includes(needle)`. -/
def containsSub : List Char → List Char → Bool
  | [], needle => needle.isEmpty
  | c :: cs, needle => needle.isPrefixOf (c :: cs) || containsSub cs needle

/-- Maximal runs of characters satisfying `p`; characters failing `p` only
separate runs and are dropped.  `acc` holds the current run, reversed. -/
def runsAux (p : Char → Bool) : List Char → List Char → List (List Char)
  | acc, [] => if acc.isEmpty then [] else [acc.reverse]
  | acc, c :: cs =>
    if p c then runsAux p (c :: acc) cs
    else if acc.isEmpty then runsAux p [] cs
    else acc.reverse :: runsAux p [] cs

/-- tokenize (homeassistant.js lines 5–11): lower-case, replace every
character outside `\p{L}\p{N}\s` by a space, split on whitespace runs and
drop empty pieces.  After the replacement every character is either
alphanumeric or whitespace, so the result is exactly the maximal
alphanumeric runs of the lowered string. -/
def tokenizeL (l : List Char) : List (List Char) :=
  runsAux (fun c => !isWs c) []
    ((lowerL l).map (fun c => if isAlnum c || isWs c then c else ' '))

/-- An entity as indexed by `indexStates` (homeassistant.js lines 57–74):
`name` is `attributes.friendly_name || entity_id` and `tokens` is the
`_tokens` field, `tokenize(name)`. -/
structure Entity where
  entity_id : String
  name : String
  state : String
  tokens : List (List Char)
deriving Repr, DecidableEq

/-- JS string truthiness of an optional string field. -/
def truthyS : Option String → Bool
  | some s => s ≠ ""
  | none => false

/-- JS `a || b` for an optional string `a` with fallback `b`. -/
def orDefault (a : Option String) (b : String) : String :=
  match a with
  | some s => if s = "" then b else s
  | none => b

/-- Build the entity record `indexStates` pushes for one state row
(homeassistant.js lines 64–70). -/
def mkEntity (entity_id : String) (friendly : Option String) (state : String) :
    Entity :=
  let name := orDefault friendly entity_id
  { entity_id := entity_id, name := name, state := state,
    tokens := tokenizeL name.data }

/-- scoreMatch (homeassistant.js lines 13–25): 0 for an empty query;
otherwise +3 per query token appearing among the entity tokens and +1 per
query token that is a substring of the raw entity id. -/
def scoreMatch (queryTokens : List (List Char)) (entityTokens : List (List Char))
    (entityId : String) : Int :=
  if queryTokens.isEmpty then 0
  else queryTokens.foldl
    (fun score token =>
      score + (if entityTokens.contains token then 3 else 0)
            + (if containsSub entityId.data token then 1 else 0))
    0

/-- The score `findEntities` computes for one entity when a search string is
given (homeassistant.js lines 110–116): `scoreMatch` plus 2 when the
case-folded search phrase is a substring of the case-folded display name. -/
def findScore (search : String) (e : Entity) : Int :=
  scoreMatch (tokenizeL search.data) e.tokens e.entity_id +
    (if containsSub (lowerL e.name.data) (lowerL search.data) then 2 else 0)

/-- The score `resolveEntityId` computes for one entity (homeassistant.js
lines 230–236): the same expression as `findScore`, then 10 subtracted when
the entity state is the sentinel "unknown" or "unavailable". -/
def resolveScore (search : String) (e : Entity) : Int :=
  let score :=
    scoreMatch (tokenizeL search.data) e.tokens e.entity_id +
      (if containsSub (lowerL e.name.data) (lowerL search.data) then 2 else 0)
  if e.state = "unknown" || e.state = "unavailable" then score - 10 else score

/-- Descending comparison on scored entities, the JS comparator
`(a, b) => b.score - a.score`. -/
def byScoreDesc (a b : Entity × Int) : Bool :=
  b.2 ≤ a.2

/-- The search branch of `findEntities` (homeassistant.js lines 109–125)
before the final field-stripping projection: score every entity of the
domain, keep strictly positive scores, sort descending, truncate to 50. -/
def findEntitiesSearch (entities : List Entity) (search : String) :
    List (Entity × Int) :=
  ((((entities.map (fun e => (e, findScore search e))).filter
      (fun r => 0 < r.2)).mergeSort byScoreDesc).take 50)

/-! ### Plan cache (src/intentCache.js) -/

/-- One stored value: the cached plan plus its absolute expiry time
(`none` models a `null` expiry, i.e. no expiry). -/
structure CacheEntry (α : Type) where
  value : α
  expiresAt : Option Nat
deriving Repr, DecidableEq

/-- The `IntentCache` object: configuration plus the backing `Map`,
modelled as an association list in insertion order, oldest first.
`defaultTtlMs = none` models a `null` default TTL. -/
structure IntentCache (α : Type) where
  maxEntries : Nat
  defaultTtlMs : Option Nat
  map : List (String × CacheEntry α)
deriving Repr, DecidableEq

/-- JS `Map.prototype.get` on the association list. -/
def mapFind {α : Type} (m : List (String × CacheEntry α)) (key : String) :
    Option (CacheEntry α) :=
  (m.find? (fun p => p.1 == key)).map (fun p => p.2)

/-- JS `Map.prototype.delete` on the association list. -/
def mapDelete {α : Type} (m : List (String × CacheEntry α)) (key : String) :
    List (String × CacheEntry α) :=
  m.eraseP (fun p => p.1 == key)

/-- IntentCache.get (intentCache.js lines 8–20).  Returns the looked-up value
(or `none`) together with the cache after the lazy-expiry deletion and the
move-to-most-recent reinsertion. -/
def IntentCache.get {α : Type} (c : IntentCache α) (now : Nat) (key : String) :
    Option α × IntentCache α :=
  match mapFind c.map key with
  | none => (none, c)
  | some entry =>
    match entry.expiresAt with
    | some e =>
      if e < now then
        (none, { c with map := mapDelete c.map key })
      else
        (some entry.value,
         { c with map := mapDelete c.map key ++ [(key, entry)] })
    | none =>
      (some entry.value,
       { c with map := mapDelete c.map key ++ [(key, entry)] })

/-- The eviction loop of IntentCache.set (intentCache.js lines 29–32):
while the map is over capacity, delete the oldest (first) entry. -/
def evictOldest {α : Type} (maxEntries : Nat) :
    List (String × CacheEntry α) → List (String × CacheEntry α)
  | [] => []
  | p :: rest =>
    if (p :: rest).length ≤ maxEntries then p :: rest
    else evictOldest maxEntries rest

/-- The absolute expiry IntentCache.set computes (intentCache.js lines
23–24): the numeric `ttlMs` if one was passed, else the default TTL; a
`null` effective TTL yields a `null` expiry. -/
def effectiveExpiry {α : Type} (c : IntentCache α) (now : Nat)
    (ttlMs : Option Nat) : Option Nat :=
  (match ttlMs with
   | some n => some n
   | none => c.defaultTtlMs).map (fun t => now + t)

/-- IntentCache.set (intentCache.js lines 22–33).  `ttlMs = none` models a
call without a numeric `ttlMs`, which falls back to the default TTL. -/
def IntentCache.set {α : Type} (c : IntentCache α) (now : Nat) (key : String)
    (value : α) (ttlMs : Option Nat) : IntentCache α :=
  let m1 := if (mapFind c.map key).isSome then mapDelete c.map key else c.map
  let m2 := m1 ++ [(key, ⟨value, effectiveExpiry c now ttlMs⟩)]
  { c with map := evictOldest c.maxEntries m2 }

/-- The keys of the backing map, in insertion order. -/
def cacheKeys {α : Type} (m : List (String × CacheEntry α)) : List String :=
  m.map (fun p => p.1)

/-- The entry IntentCache.set inserts (used to state the theorems below). -/
def newEntry {α : Type} (c : IntentCache α) (now : Nat) (v : α)
    (ttlMs : Option Nat) : CacheEntry α :=
  { value := v, expiresAt := effectiveExpiry c now ttlMs }

/-- IntentCache.delete (intentCache.js lines 35–37). -/
def IntentCache.del {α : Type} (c : IntentCache α) (key : String) :
    IntentCache α :=
  { c with map := mapDelete c.map key }

/-! ### Tool calls and plans (src/voicePlan.js) -/

/-- The `target` object of a `call_service` input. -/
structure ServiceTarget where
  entity_id : Option String
  area_id : Option String
deriving Repr, DecidableEq

/-- The input payload of a tool call; absent fields are `none`. -/
structure ToolInput where
  domain : Option String
  service : Option String
  target : Option ServiceTarget
  entity_id : Option String
  search : Option String
deriving Repr, DecidableEq

/-- A recorded tool invocation `{ name, input }`.  `input = none` models an
absent / undefined input object. -/
structure ToolCall where
  name : String
  input : Option ToolInput
deriving Repr, DecidableEq

/-- The `input?.target?.entity_id` optional chain. -/
def targetEntityId (input : Option ToolInput) : Option String :=
  (input.bind (fun i => i.target)).bind (fun t => t.entity_id)

/-- isCacheableToolCall (voicePlan.js lines 10–25). -/
def isCacheableToolCall (tc : ToolCall) : Bool :=
  if tc.name = "" || tc.input.isNone then false
  else if tc.name = "call_service" then
    if !truthyS (targetEntityId tc.input) then false
    else if tc.input.bind (fun i => i.service) = some "toggle" then false
    else true
  else if tc.name = "get_entity_state" then
    truthyS (tc.input.bind (fun i => i.entity_id))
  else false

/-- A resolved plan: schema version plus the recorded calls. -/
structure Plan where
  version : Nat
  toolCalls : List ToolCall
deriving Repr, DecidableEq

/-- buildPlanFromToolUses (voicePlan.js lines 27–35). -/
def buildPlanFromToolUses (toolUses : List ToolCall) : Option Plan :=
  let concreteCalls := toolUses.filter isCacheableToolCall
  if concreteCalls.isEmpty then none
  else some { version := 1, toolCalls := concreteCalls }

/-! ### Hub state objects and response rendering -/

/-- The attribute fields of a hub state object that the core reads. -/
structure HAAttributes where
  friendly_name : Option String
  unit_of_measurement : Option String
deriving Repr, DecidableEq

/-- A hub state object as returned by the inventory fetch. -/
structure HAState where
  entity_id : String
  state : String
  attributes : HAAttributes
deriving Repr, DecidableEq

/-- formatStateForSpeech (voicePlan.js lines 1–8). -/
def formatStateForSpeech (stateObj : HAState) : String :=
  let name := orDefault stateObj.attributes.friendly_name stateObj.entity_id
  let unit := orDefault stateObj.attributes.unit_of_measurement ""
  if unit ≠ "" then name ++ " is " ++ stateObj.state ++ unit ++ "."
  else name ++ " is " ++ stateObj.state ++ "."

/-- The `statesByEntityId` directory snapshot: entity id → state object,
modelled as an association list. -/
def statesFind (dir : List (String × HAState)) (id : String) : Option HAState :=
  (dir.find? (fun p => p.1 == id)).map (fun p => p.2)

/-- The entity-id keys present in a directory snapshot. -/
def dirKeys (dir : List (String × HAState)) : List String :=
  dir.map (fun p => p.1)

/-- The projection getEntitySummary returns (homeassistant.js lines 208–217);
`domain` is `entity_id.split('.', 1)[0]`, the prefix before the first dot. -/
structure EntitySummary where
  entity_id : String
  name : String
  domain : String
  attributes : HAAttributes
deriving Repr, DecidableEq

/-- getEntitySummary (homeassistant.js lines 208–217): pure cache lookup. -/
def getEntitySummary (dir : List (String × HAState)) (entity_id : String) :
    Option EntitySummary :=
  match statesFind dir entity_id with
  | none => none
  | some st =>
    some { entity_id := entity_id,
           name := orDefault st.attributes.friendly_name entity_id,
           domain := String.mk (entity_id.data.takeWhile (fun c => c ≠ '.')),
           attributes := st.attributes }

/-- The result attached to one executed tool call: a state object for
`get_entity_state`, the `{ success, message }` acknowledgement for
`call_service`. -/
inductive ToolOutcome where
  | stateObj (st : HAState)
  | serviceOk (message : String)
deriving Repr, DecidableEq

/-- One `{ name, input, result }` element of the executed tool-result list. -/
structure ToolResult where
  name : String
  input : Option ToolInput
  result : ToolOutcome
deriving Repr, DecidableEq

/-- renderResponseFromToolResults (voicePlan.js lines 63–84), a pure
formatter over the last result and the directory snapshot used by the
summary lookup.  In the `get_entity_state` branch the program's result is
always a state object; the `serviceOk` case there is unreachable and
rendered as the generic fallback. -/
def renderResponseFromToolResults (dir : List (String × HAState))
    (toolResults : List ToolResult) : String :=
  match toolResults.getLast? with
  | none => "Done."
  | some last =>
    if last.name = "call_service" then
      let entityId := targetEntityId last.input
      let summary :=
        if truthyS entityId then getEntitySummary dir (orDefault entityId "")
        else none
      let service := last.input.bind (fun i => i.service)
      match summary with
      | some s =>
        if service = some "turn_on" then "Turned on " ++ s.name ++ "."
        else if service = some "turn_off" then "Turned off " ++ s.name ++ "."
        else "Done."
      | none => "Done."
    else if last.name = "get_entity_state" then
      match last.result with
      | .stateObj st => formatStateForSpeech st
      | .serviceOk _ => "Done."
    else "Done."

/-! ### callService guard path (homeassistant.js lines 144–180)

The hub is an external collaborator.  `HubEnv` fixes its behaviour for one
call: the inventory a (successful) bulk refresh would return, whether that
fetch succeeds, and how the control endpoint answers.  `callService`
returns the thrown error or the success acknowledgement, together with the
directory snapshot afterwards and the list of control requests actually
submitted to the hub — empty on every guard-failure path. -/

/-- Fixed hub behaviour for one call. -/
structure HubEnv where
  states : List HAState
  fetchOk : Bool
  fetchStatus : Nat
  serviceOk : Bool
  serviceStatus : Nat
  serviceBody : String
deriving Repr, DecidableEq

/-- The error taxonomy of the thrown `Error`s, classified by message shape:
`validation` for the missing-argument throws, `notFound` for
`Entity '…' not found`, `remote` for non-success hub responses. -/
inductive HAErr where
  | validation (msg : String)
  | notFound (entity_id : String)
  | remote (status : Nat) (body : String)
deriving Repr, DecidableEq

/-- A POST to `/api/services/{domain}/{service}` with the merged payload. -/
structure ControlReq where
  domain : String
  service : String
  payload_entity_id : Option String
  payload_area_id : Option String
deriving Repr, DecidableEq

/-- indexStates (homeassistant.js line 58): the id → state map of a fetch. -/
def indexStatesL (states : List HAState) : List (String × HAState) :=
  states.map (fun s => (s.entity_id, s))

/-- The directory side of the client state that `callService` consults:
the current snapshot and whether it is stale (its TTL window has passed),
which decides what `ensureStatesFresh` does. -/
structure DirState where
  snapshot : List (String × HAState)
  stale : Bool
deriving Repr, DecidableEq

/-- callService (homeassistant.js lines 144–180), returning the outcome,
the directory state afterwards, and the control requests submitted. -/
def callService (env : HubEnv) (dir : DirState) (domain service : Option String)
    (target : Option ServiceTarget) :
    Except HAErr String × DirState × List ControlReq :=
  if !truthyS domain then (.error (.validation "domain is required"), dir, [])
  else if !truthyS service then
    (.error (.validation "service is required"), dir, [])
  else
    let tgtId := (target.bind (fun t => t.entity_id))
    let submit : DirState → Except HAErr String × DirState × List ControlReq :=
      fun d =>
        let req : ControlReq :=
          { domain := orDefault domain "", service := orDefault service "",
            payload_entity_id := if truthyS tgtId then tgtId else none,
            payload_area_id :=
              if truthyS (target.bind (fun t => t.area_id)) then
                target.bind (fun t => t.area_id)
              else none }
        if env.serviceOk then
          (.ok ("Called " ++ orDefault domain "" ++ "." ++ orDefault service ""),
           d, [req])
        else
          (.error (.remote env.serviceStatus env.serviceBody), d, [req])
    if truthyS tgtId then
      let id := orDefault tgtId ""
      -- await ensureStatesFresh(): refresh only when the snapshot is stale
      if dir.stale then
        if !env.fetchOk then
          (.error (.remote env.fetchStatus ""), dir, [])
        else
          let d1 : DirState := ⟨indexStatesL env.states, false⟩
          if (statesFind d1.snapshot id).isSome then submit d1
          else
            -- refreshed just now; the forced refresh re-fetches the same env
            let d2 : DirState := ⟨indexStatesL env.states, false⟩
            if (statesFind d2.snapshot id).isSome then submit d2
            else (.error (.notFound id), d2, [])
      else
        if (statesFind dir.snapshot id).isSome then submit dir
        else if !env.fetchOk then
          (.error (.remote env.fetchStatus ""), dir, [])
        else
          let d2 : DirState := ⟨indexStatesL env.states, false⟩
          if (statesFind d2.snapshot id).isSome then submit d2
          else (.error (.notFound id), d2, [])
    else submit dir

/-! ### Single-flight refresh (homeassistant.js lines 76–96)

The JS code between two `await`s runs atomically.  `refreshBegin` is the
synchronous prefix of `refreshStates`: the freshness gate, the in-flight
check, and (when neither applies) starting the fetch and installing the
guard.  `refreshSettle` is what happens when the fetch settles: the
`finally` clears the guard even on failure, and a successful fetch resets
the freshness clock. -/

/-- The mutable client state `refreshStates` touches. -/
structure SFState where
  inFlight : Bool
  lastStatesRefreshAt : Nat
  statesTtlMs : Nat
deriving Repr, DecidableEq

/-- How one `refreshStates` call returns to its caller. -/
inductive RefreshReturn where
  | skipped
  | joined
  | started
deriving Repr, DecidableEq

/-- The synchronous prefix of `refreshStates({force})` executed at `now`:
`skipped` is the `if (!force && !stale) return;` early exit, `joined` is
`if (refreshInFlight) return refreshInFlight;`, and `started` installs the
guard and issues the (single) hub fetch. -/
def refreshBegin (st : SFState) (force : Bool) (now : Nat) :
    RefreshReturn × SFState :=
  let stale := st.statesTtlMs < now - st.lastStatesRefreshAt
  if !force && !stale then (.skipped, st)
  else if st.inFlight then (.joined, st)
  else (.started, { st with inFlight := true })

/-- The fetch settles at `completedAt`: on success `lastStatesRefreshAt` is
reset; in both cases the `finally` clears `refreshInFlight`. -/
def refreshSettle (st : SFState) (ok : Bool) (completedAt : Nat) : SFState :=
  if ok then { inFlight := false, lastStatesRefreshAt := completedAt,
               statesTtlMs := st.statesTtlMs }
  else { st with inFlight := false }

/-- One observable event at the client: a `refreshStates` call entering its
synchronous prefix, or the in-flight fetch settling. -/
inductive SFEvent where
  | call (force : Bool) (now : Nat)
  | settle (ok : Bool) (now : Nat)
deriving Repr, DecidableEq

/-- Step of the event semantics; the `Nat` is the number of hub fetches the
event issues (0 or 1). -/
def sfStep (st : SFState) : SFEvent → SFState × Nat
  | .call force now =>
    let r := refreshBegin st force now
    (r.2, if r.1 = RefreshReturn.started then 1 else 0)
  | .settle ok now => (refreshSettle st ok now, 0)

/-- Run a trace of events, accumulating the state, the number of fetches
started, and the number of fetches settled. -/
def sfRun (st : SFState) : List SFEvent → SFState × Nat × Nat
  | [] => (st, 0, 0)
  | e :: evs =>
    let s := sfStep st e
    let rest := sfRun s.1 evs
    (rest.1, s.2 + rest.2.1,
     (match e with | .settle _ _ => 1 | .call _ _ => 0) + rest.2.2)

/-- A trace is well-formed when a settle event only occurs while a fetch is
actually outstanding (every settle is the completion of the started fetch). -/
def sfWellFormed (st : SFState) : List SFEvent → Bool
  | [] => true
  | .call force now :: evs => sfWellFormed (sfStep st (.call force now)).1 evs
  | .settle ok now :: evs =>
    st.inFlight && sfWellFormed (sfStep st (.settle ok now)).1 evs

/-! ### The LLM tool-use loop (index.js lines 277–324)

The model is an external collaborator; a run of `processVoiceCommand` is
determined by the sequence of responses the model would give.  Each
`anthropic.messages.create` call consumes the next scripted response; the
loop iterates while `stop_reason === 'tool_use'`, accumulating every
requested tool invocation (tool failures are caught and fed back, never
thrown).  There is no round counter and no error raised by the loop
itself. -/

/-- One model response: its stop reason, the text block content (if any),
and the tool invocations it requests. -/
structure ModelResponse where
  stop_reason : String
  text : Option String
  toolUses : List ToolCall
deriving Repr, DecidableEq

/-- How a scripted run ends: the final response text together with the
number of model calls made and the accumulated tool uses, or exhaustion of
the script while the model still asks for tools (the loop would simply
keep going). -/
inductive LoopOutcome where
  | finished (text : String) (modelCalls : Nat) (toolUsesSeen : List ToolCall)
  | outOfScript (modelCalls : Nat)
deriving Repr, DecidableEq

/-- The response-consuming loop of `processVoiceCommand`: `modelCalls`
counts the `messages.create` calls already made (the response at the head
of the script answers the most recent one). -/
def runToolUseLoop : List ModelResponse → Nat → List ToolCall → LoopOutcome
  | [], modelCalls, _ => .outOfScript modelCalls
  | r :: rest, modelCalls, seen =>
    if r.stop_reason = "tool_use" then
      runToolUseLoop rest (modelCalls + 1) (seen ++ r.toolUses)
    else
      .finished (orDefault r.text "Done.") modelCalls seen

/-- processVoiceCommand's model interaction for a scripted response list:
the initial `messages.create` is the first model call. -/
def processVoiceCommandLoop (script : List ModelResponse) : LoopOutcome :=
  runToolUseLoop script 1 []

/-- The number of model calls an outcome records. -/
def LoopOutcome.modelCallCount : LoopOutcome → Nat
  | .finished _ n _ => n
  | .outOfScript n => n

/-! ### Utterance normalizer (src/normalize.js)

`normalizeUtterance` lower-cases, replaces every character outside
`[\p{L}\p{N}\s%.-]` by a space, applies the ordered substitution list
(`/\bswitch\s+(on|off)\b/g → 'turn $1'`, then global deletion of the
standalone words `please`, `the`, `a`, `an`, `my`), collapses whitespace
runs to single spaces and trims.  The global regex replacements are
modelled as left-to-right scanners over `List Char`: `prev` is the
character just before the current position (`none` at the start), used for
the `\b` assertion, and a `skip` counter consumes the remaining characters
of a match so that the scanners are structurally recursive.  As in JS,
matching is against the original string, and scanning resumes right after
each match. -/

/-- The character class kept by `normalize`'s first replacement,
`[^\p{L}\p{N}\s%.-]` (ASCII granularity). -/
def keepNorm (c : Char) : Bool :=
  isAlnum c || isWs c || c = '%' || c = '.' || c = '-'

/-- normalize.js line 13: replace every non-kept character by a space. -/
def stripL (l : List Char) : List Char :=
  l.map (fun c => if keepNorm c then c else ' ')

/-- The `\b` assertion at a position whose following character starts a
word: it holds iff the adjacent character is absent or not a word char. -/
def noWordAdj : Option Char → Bool
  | none => true
  | some c => !isWordChar c

/-- Does `\bw\b` match at the start of `l`, where `prev` is the character
before `l`?  (`w` is a nonempty all-word-character pattern.) -/
def wordMatchAt (w : List Char) (prev : Option Char) (l : List Char) : Bool :=
  !w.isEmpty && noWordAdj prev && w.isPrefixOf l
    && noWordAdj ((l.drop w.length).head?)

/-- Scanner for the global replacement of `\bw\b` by the empty string.
`skip > 0` means the scanner is inside a match whose characters are being
consumed without being emitted. -/
def delAux (w : List Char) : Nat → Option Char → List Char → List Char
  | _, _, [] => []
  | Nat.succ n, _, c :: cs => delAux w n (some c) cs
  | 0, prev, c :: cs =>
    if wordMatchAt w prev (c :: cs) then delAux w (w.length - 1) (some c) cs
    else c :: delAux w 0 (some c) cs

/-- Global deletion of the standalone word `w` (the filler-word rules of
normalize.js lines 3–7). -/
def delWord (w : List Char) (l : List Char) : List Char :=
  delAux w 0 none l

/-- Does `\bw\b` match anywhere in `l` (with `prev` before `l`)? -/
def hasWordAux (w : List Char) : Option Char → List Char → Bool
  | _, [] => false
  | prev, c :: cs => wordMatchAt w prev (c :: cs) || hasWordAux w (some c) cs

/-- Does `\bw\b` match anywhere in `l`? -/
def hasWord (w : List Char) (l : List Char) : Bool :=
  hasWordAux w none l

def switchW : List Char := "switch".data
def onW : List Char := "on".data
def offW : List Char := "off".data
def turnOnW : List Char := "turn on".data
def turnOffW : List Char := "turn off".data
def pleaseW : List Char := "please".data
def theW : List Char := "the".data
def aW : List Char := "a".data
def anW : List Char := "an".data
def myW : List Char := "my".data

/-- Does `\bswitch\s+(on|off)\b` match at the start of `l`?  The greedy
`\s+` can only place `(on|off)` at the first non-whitespace character after
the run, and the alternation tries `on` before `off`. -/
def rule1MatchAt (prev : Option Char) (l : List Char) : Bool :=
  let rest1 := l.drop 6
  let rest2 := rest1.dropWhile isWs
  noWordAdj prev && switchW.isPrefixOf l && !(rest1.takeWhile isWs).isEmpty &&
    ((onW.isPrefixOf rest2 && noWordAdj ((rest2.drop 2).head?)) ||
     (offW.isPrefixOf rest2 && noWordAdj ((rest2.drop 3).head?)))

/-- Scanner for `/\bswitch\s+(on|off)\b/g → 'turn $1'`
(normalize.js line 2). -/
def rule1Aux : Nat → Option Char → List Char → List Char
  | _, _, [] => []
  | Nat.succ n, _, c :: cs => rule1Aux n (some c) cs
  | 0, prev, c :: cs =>
    let l := c :: cs
    let rest1 := l.drop 6
    let wsRun := rest1.takeWhile isWs
    let rest2 := rest1.dropWhile isWs
    if noWordAdj prev && switchW.isPrefixOf l && !wsRun.isEmpty then
      if onW.isPrefixOf rest2 && noWordAdj ((rest2.drop 2).head?) then
        turnOnW ++ rule1Aux (6 + wsRun.length + 2 - 1) (some c) cs
      else if offW.isPrefixOf rest2 && noWordAdj ((rest2.drop 3).head?) then
        turnOffW ++ rule1Aux (6 + wsRun.length + 3 - 1) (some c) cs
      else c :: rule1Aux 0 (some c) cs
    else c :: rule1Aux 0 (some c) cs

/-- The switch→turn rewrite applied globally. -/
def rule1 (l : List Char) : List Char :=
  rule1Aux 0 none l

/-- Does the switch→turn rule match anywhere in `l` (with `prev` before)? -/
def hasRule1Aux : Option Char → List Char → Bool
  | _, [] => false
  | prev, c :: cs => rule1MatchAt prev (c :: cs) || hasRule1Aux (some c) cs

/-- Does `\bswitch\s+(on|off)\b` match anywhere in `l`? -/
def hasRule1 (l : List Char) : Bool :=
  hasRule1Aux none l

/-- Scanner for `replace(/\s+/g, ' ')`: the flag records whether the
previous character was whitespace (i.e. we are inside a run already
replaced by one space). -/
def collapseAux : Bool → List Char → List Char
  | _, [] => []
  | inWs, c :: cs =>
    if isWs c then
      if inWs then collapseAux true cs else ' ' :: collapseAux true cs
    else c :: collapseAux false cs

/-- normalize.js line 19, first half: collapse whitespace runs. -/
def collapseWs (l : List Char) : List Char :=
  collapseAux false l

/-- `String.prototype.trim`: drop leading and trailing whitespace. -/
def trimL (l : List Char) : List Char :=
  ((l.dropWhile isWs).reverse.dropWhile isWs).reverse

/-- normalizeUtterance (normalize.js lines 10–21) on character lists. -/
def normalizeL (l : List Char) : List Char :=
  trimL (collapseWs (delWord myW (delWord anW (delWord aW (delWord theW
    (delWord pleaseW (rule1 (stripL (lowerL l)))))))))

/-- normalizeUtterance (normalize.js lines 10–21). -/
def normalizeUtterance (s : String) : String :=
  String.mk (normalizeL s.data)

/-! ### Specification-level notions used by the theorems below -/

/-- The maximal runs of word characters (`\w`) of a string: exactly the
substrings a `\bw\b` pattern with an all-word-character `w` can match. -/
def wordRuns : List Char → List (List Char)
  | [] => []
  | c :: cs =>
    if isWordChar c then
      (c :: cs.takeWhile isWordChar) :: wordRuns (cs.dropWhile isWordChar)
    else wordRuns cs
termination_by l => l.length
decreasing_by
  · simpa using Nat.lt_succ_of_le (List.dropWhile_sublist _).length_le
  · simp

/-- Is the head of the list (if any) a non-whitespace character? -/
def headNotWs : List Char → Bool
  | [] => true
  | d :: _ => !isWs d

/-- Canonical whitespace shape: every whitespace character is a single
space and no two whitespace characters are adjacent.  This is the shape
`collapseWs` produces and `trimL` preserves. -/
def wsCanon : List Char → Bool
  | [] => true
  | c :: cs =>
    if isWs c then (c = ' ' : Bool) && headNotWs cs && wsCanon cs
    else wsCanon cs

/-- Characters that survive `normalize` unchanged: kept by the character
strip and fixed by lower-casing. -/
def charOK (c : Char) : Bool :=
  keepNorm c && (lowerC c = c : Bool)

/-! ## Theorems

First a small library of facts about the plan cache's backing list. -/

theorem evictOldest_eq_drop {α : Type} (maxEntries : Nat)
    (l : List (String × CacheEntry α)) :
    evictOldest maxEntries l = l.drop (l.length - maxEntries) := by
  induction l with
  | nil => simp [evictOldest]
  | cons p rest ih =>
    by_cases h : (p :: rest).length ≤ maxEntries
    · rw [evictOldest, if_pos h, Nat.sub_eq_zero_of_le h, List.drop_zero]
    · rw [evictOldest, if_neg h, ih]
      have hlen : (p :: rest).length - maxEntries =
          (rest.length - maxEntries) + 1 := by
        simp only [List.length_cons] at h ⊢; omega
      rw [hlen, List.drop_succ_cons]

theorem mapFind_eq_none_iff {α : Type} {m : List (String × CacheEntry α)}
    {key : String} : mapFind m key = none ↔ ∀ p ∈ m, p.1 ≠ key := by
  simp [mapFind, List.find?_eq_none]

theorem mapFind_append {α : Type} (m1 m2 : List (String × CacheEntry α))
    (key : String) :
    mapFind (m1 ++ m2) key = (mapFind m1 key).or (mapFind m2 key) := by
  simp [mapFind, List.find?_append]
  cases List.find? (fun p => p.1 == key) m1 <;> simp

theorem mapFind_mapDelete_self {α : Type} (m : List (String × CacheEntry α))
    (key : String) (h : (cacheKeys m).Nodup) :
    mapFind (mapDelete m key) key = none := by
  induction m with
  | nil => simp [mapDelete, mapFind]
  | cons p rest ih =>
    simp only [cacheKeys, List.map_cons, List.nodup_cons, List.mem_map] at h
    by_cases hp : p.1 = key
    · have : mapDelete (p :: rest) key = rest := by
        simp [mapDelete, List.eraseP_cons, hp]
      rw [this, mapFind_eq_none_iff]
      intro q hq hqk
      exact h.1 ⟨q, hq, by rw [hqk, ← hp]⟩
    · have : mapDelete (p :: rest) key = p :: mapDelete rest key := by
        simp [mapDelete, List.eraseP_cons, hp]
      rw [this]
      have hfind : (p.1 == key) = false := by simp [hp]
      simp only [mapFind, List.find?_cons, hfind]
      exact ih h.2

theorem set_m1_key_free {α : Type} (c : IntentCache α) (key : String)
    (h : (cacheKeys c.map).Nodup) :
    ∀ p ∈ (if (mapFind c.map key).isSome then mapDelete c.map key else c.map),
      p.1 ≠ key := by
  by_cases hs : (mapFind c.map key).isSome
  · rw [if_pos hs]
    intro p hp hpk
    have hnone := mapFind_mapDelete_self c.map key h
    rw [mapFind_eq_none_iff] at hnone
    exact hnone p hp hpk
  · rw [if_neg hs]
    intro p hp hpk
    rw [Option.not_isSome_iff_eq_none, mapFind_eq_none_iff] at hs
    exact hs p hp hpk

theorem set_map_eq_drop {α : Type} (c : IntentCache α) (now : Nat)
    (key : String) (v : α) (ttlMs : Option Nat) :
    ∃ m1 : List (String × CacheEntry α),
      ((cacheKeys c.map).Nodup → ∀ p ∈ m1, p.1 ≠ key) ∧
      List.Sublist m1 c.map ∧
      (c.set now key v ttlMs).map =
        (m1 ++ [(key, newEntry c now v ttlMs)]).drop
          (m1.length + 1 - c.maxEntries) := by
  refine ⟨if (mapFind c.map key).isSome then mapDelete c.map key else c.map,
    fun hnd p hp => set_m1_key_free c key hnd p hp, ?_, ?_⟩
  · by_cases hs : (mapFind c.map key).isSome
    · rw [if_pos hs]; exact List.eraseP_sublist c.map
    · rw [if_neg hs]
  · show evictOldest _ _ = _
    rw [evictOldest_eq_drop]
    congr 1
    simp

theorem set_mapFind_self {α : Type} (c : IntentCache α) (now : Nat)
    (key : String) (v : α) (ttlMs : Option Nat)
    (h : (cacheKeys c.map).Nodup) :
    mapFind (c.set now key v ttlMs).map key =
        some (newEntry c now v ttlMs) ∨
      mapFind (c.set now key v ttlMs).map key = none := by
  obtain ⟨m1, hfree, -, hmap⟩ := set_map_eq_drop c now key v ttlMs
  rw [hmap, List.drop_append_eq_append_drop]
  by_cases hk : m1.length + 1 - c.maxEntries ≤ m1.length
  · left
    rw [Nat.sub_eq_zero_of_le hk, List.drop_zero, mapFind_append]
    have h1 : mapFind (m1.drop (m1.length + 1 - c.maxEntries)) key = none := by
      rw [mapFind_eq_none_iff]
      exact fun p hp => hfree h p (List.mem_of_mem_drop hp)
    rw [h1]
    simp [mapFind]
  · right
    have hnil : List.drop (m1.length + 1 - c.maxEntries - m1.length)
        [(key, newEntry c now v ttlMs)] = [] := by
      apply List.drop_eq_nil_of_le
      simp only [List.length_singleton]
      omega
    rw [hnil, List.append_nil, mapFind_eq_none_iff]
    exact fun p hp => hfree h p (List.mem_of_mem_drop hp)

theorem cacheKeys_set_nodup {α : Type} (c : IntentCache α) (now : Nat)
    (key : String) (v : α) (ttlMs : Option Nat)
    (h : (cacheKeys c.map).Nodup) :
    (cacheKeys (c.set now key v ttlMs).map).Nodup := by
  obtain ⟨m1, hfree, hsub, hmap⟩ := set_map_eq_drop c now key v ttlMs
  have h1 : (cacheKeys m1).Nodup := List.Nodup.sublist (hsub.map _) h
  have h2 : (cacheKeys (m1 ++ [(key, newEntry c now v ttlMs)])).Nodup := by
    simp only [cacheKeys, List.map_append, List.map_cons, List.map_nil] at h1 ⊢
    rw [List.nodup_append]
    refine ⟨h1, List.nodup_singleton _, ?_⟩
    intro a ha hb
    simp only [List.mem_singleton] at hb
    subst hb
    simp only [List.mem_map] at ha
    obtain ⟨p, hp, hpk⟩ := ha
    exact hfree h p hp hpk
  rw [hmap]
  exact List.Nodup.sublist ((List.drop_sublist _ _).map _) h2

/-! ### C10 — capacity bound and the degenerate zero-capacity cache -/

/-- C10: after every `set` the cache holds at most `maxEntries` entries;
with `maxEntries = 0` the eviction loop removes even the entry just
inserted, so the map stays empty, and a `get` on an empty cache returns
`null` and leaves the cache unchanged. -/
theorem C10_capacity_invariant :
    (∀ (α : Type) (c : IntentCache α) (now : Nat) (key : String) (v : α)
        (ttlMs : Option Nat),
      (c.set now key v ttlMs).map.length ≤ c.maxEntries) ∧
    (∀ (α : Type) (c : IntentCache α) (now : Nat) (key : String) (v : α)
        (ttlMs : Option Nat),
      c.maxEntries = 0 → (c.set now key v ttlMs).map = []) ∧
    (∀ (α : Type) (c : IntentCache α) (now : Nat) (key : String),
      c.map = [] → c.get now key = (none, c)) := by
  refine ⟨?_, ?_, ?_⟩
  · intro α c now key v ttlMs
    obtain ⟨m1, -, -, hmap⟩ := set_map_eq_drop c now key v ttlMs
    rw [hmap, List.length_drop]
    simp only [List.length_append, List.length_singleton]
    omega
  · intro α c now key v ttlMs h0
    obtain ⟨m1, -, -, hmap⟩ := set_map_eq_drop c now key v ttlMs
    rw [hmap, h0, Nat.sub_zero]
    apply List.drop_eq_nil_of_le
    simp
  · intro α c now key hmap
    have : mapFind c.map key = none := by rw [hmap]; rfl
    rw [IntentCache.get, this]

/-- C10 witness at a concrete zero-capacity cache and a concrete `set`. -/
theorem C10_capacity_invariant_witness :
    (({ maxEntries := 0, defaultTtlMs := some 5, map := [] } :
        IntentCache Nat).set 100 "turn on light" 7 none).map = [] ∧
    (({ maxEntries := 0, defaultTtlMs := some 5, map := [] } :
        IntentCache Nat).get 200 "turn on light") =
      (none, { maxEntries := 0, defaultTtlMs := some 5, map := [] }) :=
  ⟨C10_capacity_invariant.2.1 Nat _ 100 "turn on light" 7 none rfl,
   C10_capacity_invariant.2.2 Nat _ 200 "turn on light" rfl⟩

theorem getLast?_drop_of_ne_nil {β : Type} {l : List β} {k : Nat}
    (h : l.drop k ≠ []) : (l.drop k).getLast? = l.getLast? := by
  conv_rhs => rw [← List.take_append_drop k l]
  rw [List.getLast?_append_of_ne_nil _ h]

/-! ### C5 — lazy expiry on `get` -/

/-- C5 as stated is false: `get` treats an entry as expired only when
`Date.now() > entry.expiresAt` holds strictly, so an entry inserted with
`ttlMs = 0` at time 100 is still returned by a `get` at time 100 (a time
greater than or equal to the insertion time), not absent. -/
theorem C5_counterexample :
    ((({ maxEntries := 10, defaultTtlMs := some 1000, map := [] } :
        IntentCache Nat).set 100 "pool temp" 7 (some 0)).get 100 "pool temp").1 =
      some 7 := by decide

/-- C5 (amended): an entry inserted with `ttlMs = 0`, or one whose expiry
time has already strictly passed, is treated as absent by a `get` at any
time strictly greater than the insertion (resp. expiry) time, and the
entry is removed. -/
theorem C5_ttl_zero_expiry :
    (∀ (α : Type) (c : IntentCache α) (key : String) (v : α) (t0 now : Nat),
      (cacheKeys c.map).Nodup → t0 < now →
      (((c.set t0 key v (some 0)).get now key).1 = none ∧
        mapFind ((c.set t0 key v (some 0)).get now key).2.map key = none)) ∧
    (∀ (α : Type) (c : IntentCache α) (key : String) (now : Nat)
        (entry : CacheEntry α) (e : Nat),
      (cacheKeys c.map).Nodup → mapFind c.map key = some entry →
      entry.expiresAt = some e → e < now →
      ((c.get now key).1 = none ∧
        mapFind ((c.get now key).2).map key = none)) := by
  constructor
  · intro α c key v t0 now hnd ht
    have hexp : effectiveExpiry c t0 (some 0) = some t0 := by
      simp [effectiveExpiry]
    have hnd' := cacheKeys_set_nodup c t0 key v (some 0) hnd
    rcases set_mapFind_self c t0 key v (some 0) hnd with hf | hf
    · simp only [IntentCache.get, hf, newEntry, hexp]
      rw [if_pos ht]
      exact ⟨by trivial, mapFind_mapDelete_self _ _ hnd'⟩
    · simp only [IntentCache.get, hf]
      exact ⟨by trivial, by trivial⟩
  · intro α c key now entry e hnd hf he hlt
    simp only [IntentCache.get, hf, he]
    rw [if_pos hlt]
    exact ⟨by trivial, mapFind_mapDelete_self _ _ hnd⟩

/-- C5 witness: a concrete ttl-0 insertion at time 100 read at time 101. -/
theorem C5_ttl_zero_expiry_witness :
    ((({ maxEntries := 10, defaultTtlMs := some 1000, map := [] } :
        IntentCache Nat).set 100 "pool temp" 7 (some 0)).get 101 "pool temp").1 =
      none :=
  (C5_ttl_zero_expiry.1 Nat _ "pool temp" 7 100 101 (by decide) (by decide)).1

/-! ### C4 — LRU order: reads and writes refresh recency, eviction takes
the least-recently-used entry -/

/-- C4: a `get` that finds a live entry returns its value and moves it to
the most-recently-used (last) position; a `set` always leaves the written
key at the most-recently-used position (whenever the capacity is positive,
so that the just-written entry is not itself evicted); and a `set` of a
fresh key into a cache holding exactly `maxEntries` entries evicts exactly
the least-recently-used (first) entry while all others remain, in order. -/
theorem C4_lru_order :
    (∀ (α : Type) (c : IntentCache α) (now : Nat) (key : String)
        (entry : CacheEntry α),
      mapFind c.map key = some entry →
      (∀ e, entry.expiresAt = some e → now ≤ e) →
      ((c.get now key).1 = some entry.value ∧
        (c.get now key).2.map = mapDelete c.map key ++ [(key, entry)])) ∧
    (∀ (α : Type) (c : IntentCache α) (now : Nat) (key : String) (v : α)
        (ttlMs : Option Nat),
      0 < c.maxEntries →
      (c.set now key v ttlMs).map.getLast? =
        some (key, newEntry c now v ttlMs)) ∧
    (∀ (α : Type) (c : IntentCache α) (now : Nat) (key : String) (v : α)
        (ttlMs : Option Nat),
      mapFind c.map key = none →
      c.map.length = c.maxEntries → 0 < c.maxEntries →
      (c.set now key v ttlMs).map =
        c.map.tail ++ [(key, newEntry c now v ttlMs)]) := by
  refine ⟨?_, ?_, ?_⟩
  · intro α c now key entry hf hlive
    cases hexp : entry.expiresAt with
    | none =>
      simp only [IntentCache.get, hf, hexp]
      exact ⟨by trivial, by trivial⟩
    | some e =>
      have hnow : ¬ e < now := by have := hlive e hexp; omega
      simp only [IntentCache.get, hf, hexp]
      rw [if_neg hnow]
      exact ⟨by trivial, by trivial⟩
  · intro α c now key v ttlMs hpos
    obtain ⟨m1, -, -, hmap⟩ := set_map_eq_drop c now key v ttlMs
    rw [hmap]
    have hne : (m1 ++ [(key, newEntry c now v ttlMs)]).drop
        (m1.length + 1 - c.maxEntries) ≠ [] := by
      intro hnil
      have := congrArg List.length hnil
      rw [List.length_drop] at this
      simp only [List.length_append, List.length_singleton,
        List.length_nil] at this
      omega
    rw [getLast?_drop_of_ne_nil hne, List.getLast?_append_of_ne_nil _
      (by simp)]
    simp
  · intro α c now key v ttlMs hf hlen hpos
    have hstep : (c.set now key v ttlMs).map =
        (c.map ++ [(key, newEntry c now v ttlMs)]).drop
          ((c.map ++ [(key, newEntry c now v ttlMs)]).length -
            c.maxEntries) := by
      show evictOldest _ _ = _
      rw [hf]
      simp only [Option.isSome_none, Bool.false_eq_true, if_false]
      rw [evictOldest_eq_drop]
      rfl
    rw [hstep]
    have hlen2 : (c.map ++ [(key, newEntry c now v ttlMs)]).length -
        c.maxEntries = 1 := by
      simp only [List.length_append, List.length_singleton]
      omega
    rw [hlen2]
    cases hm : c.map with
    | nil => rw [hm] at hlen; simp at hlen; omega
    | cons p rest => simp

/-- C4 witness: a two-entry cache at capacity 2; a `get` of "a" moves it to
the back, then a `set` of the fresh key "c" evicts "b", the now
least-recently-used entry. -/
theorem C4_lru_order_witness :
    ((({ maxEntries := 2, defaultTtlMs := none, map := [("a", ⟨1, none⟩), ("b", ⟨2, none⟩)] } : IntentCache Nat).get 50 "a").1 = some 1 ∧
      (({ maxEntries := 2, defaultTtlMs := none, map := [("a", ⟨1, none⟩), ("b", ⟨2, none⟩)] } : IntentCache Nat).get 50 "a").2.map =
        mapDelete [("a", ⟨1, none⟩), ("b", ⟨2, none⟩)] "a" ++ [("a", ⟨1, none⟩)]) ∧
    (({ maxEntries := 2, defaultTtlMs := none, map := [("b", ⟨2, none⟩), ("a", ⟨1, none⟩)] } : IntentCache Nat).set 60 "c" 3 none).map =
      [("b", ⟨2, none⟩), ("a", ⟨1, none⟩)].tail ++
        [("c", newEntry ({ maxEntries := 2, defaultTtlMs := none, map := [("b", ⟨2, none⟩), ("a", ⟨1, none⟩)] } : IntentCache Nat) 60 3 none)] :=
  ⟨C4_lru_order.1 Nat _ 50 "a" ⟨1, none⟩ (by decide)
      (fun e he => by simp at he),
   C4_lru_order.2.2 Nat _ 60 "c" 3 none (by decide) (by decide) (by decide)⟩

/-! ### C3 — cacheability of tool calls and plan construction -/

/-- C3: a `call_service` call is cacheable iff it has a (truthy) target
entity id and its service is not `toggle`; a `get_entity_state` call is
cacheable iff it names a (truthy) entity id; a `find_entities` call is
never cacheable; and `buildPlanFromToolUses` returns a plan iff at least
one recorded call is cacheable. -/
theorem C3_cacheability :
    (∀ tc : ToolCall, tc.name = "call_service" →
      (isCacheableToolCall tc = true ↔
        (truthyS (targetEntityId tc.input) = true ∧
          tc.input.bind (fun i => i.service) ≠ some "toggle"))) ∧
    (∀ tc : ToolCall, tc.name = "get_entity_state" →
      (isCacheableToolCall tc = true ↔
        truthyS (tc.input.bind (fun i => i.entity_id)) = true)) ∧
    (∀ tc : ToolCall, tc.name = "find_entities" →
      isCacheableToolCall tc = false) ∧
    (∀ toolUses : List ToolCall,
      ((buildPlanFromToolUses toolUses).isSome = true ↔
        ∃ tc ∈ toolUses, isCacheableToolCall tc = true)) := by
  refine ⟨?_, ?_, ?_, ?_⟩
  · intro tc hname
    cases hinput : tc.input with
    | none =>
      simp [isCacheableToolCall, hname, hinput, targetEntityId, truthyS]
    | some i =>
      have hne : ¬ tc.name = "" := by rw [hname]; decide
      simp only [isCacheableToolCall, hname, hinput]
      simp only [hne, Option.isNone_some, Bool.or_false, if_false, if_true]
      by_cases htgt : truthyS (targetEntityId (some i)) = true
      · simp only [htgt, Bool.not_true, Bool.false_eq_true, if_false]
        by_cases hsvc : (some i : Option ToolInput).bind
            (fun i => i.service) = some "toggle"
        · simp [hsvc]
        · simp [hsvc]
      · have : truthyS (targetEntityId (some i)) = false := by
          revert htgt; cases truthyS (targetEntityId (some i)) <;> simp
        simp [this, htgt]
  · intro tc hname
    cases hinput : tc.input with
    | none => simp [isCacheableToolCall, hname, hinput, truthyS]
    | some i =>
      have hne : ¬ tc.name = "" := by rw [hname]; decide
      have hcs : ¬ tc.name = "call_service" := by rw [hname]; decide
      simp [isCacheableToolCall, hname, hinput, hne, hcs]
  · intro tc hname
    cases hinput : tc.input with
    | none => simp [isCacheableToolCall, hname, hinput]
    | some i =>
      have hne : ¬ tc.name = "" := by rw [hname]; decide
      have hcs : ¬ tc.name = "call_service" := by rw [hname]; decide
      have hgs : ¬ tc.name = "get_entity_state" := by rw [hname]; decide
      simp [isCacheableToolCall, hname, hinput, hne, hcs, hgs]
  · intro toolUses
    rw [buildPlanFromToolUses]
    by_cases h : (toolUses.filter isCacheableToolCall).isEmpty
    · rw [if_pos h]
      simp only [Option.isSome_none, Bool.false_eq_true, false_iff]
      rw [List.isEmpty_iff, List.filter_eq_nil_iff] at h
      rintro ⟨tc, htc, hc⟩
      exact absurd hc (by simpa using h tc htc)
    · rw [if_neg h]
      simp only [Option.isSome_some, true_iff]
      rw [List.isEmpty_iff] at h
      obtain ⟨tc, htc⟩ := List.exists_mem_of_ne_nil _ h
      have := List.mem_filter.mp htc
      exact ⟨tc, this.1, this.2⟩

/-- C3 witness: a concrete toggle call (not cacheable), a concrete
turn_off call with a target (cacheable), a discovery call (not cacheable),
and a plan built from them. -/
theorem C3_cacheability_witness :
    (isCacheableToolCall (ToolCall.mk "call_service" (some (ToolInput.mk (some "light") (some "toggle") (some (ServiceTarget.mk (some "light.bedroom") none)) none none))) = true ↔
      (truthyS (targetEntityId (some (ToolInput.mk (some "light") (some "toggle") (some (ServiceTarget.mk (some "light.bedroom") none)) none none))) = true ∧
        (some (ToolInput.mk (some "light") (some "toggle") (some (ServiceTarget.mk (some "light.bedroom") none)) none none)).bind (fun i => i.service) ≠ some "toggle")) ∧
    isCacheableToolCall (ToolCall.mk "find_entities" (some (ToolInput.mk (some "light") none none none (some "bedroom")))) = false :=
  ⟨C3_cacheability.1 _ rfl, C3_cacheability.2.2.1 _ rfl⟩

/-! ### C6 — rendering is a pure function of the last tool result -/

/-- C6: the rendered response depends only on the last tool result; a
`call_service` last result with a known summary and service
`turn_on`/`turn_off` renders "Turned on/off {name}.", any other
`call_service` (in particular an unknown summary) renders "Done."; a
`get_entity_state` last result renders "{name} is {state}{unit}." where
the unit string is appended with no separating space and is empty when
absent; any other last-result name renders "Done.". -/
theorem C6_render_last_result :
    (∀ (dir : List (String × HAState)) (rs1 rs2 : List ToolResult),
      rs1.getLast? = rs2.getLast? →
      renderResponseFromToolResults dir rs1 =
        renderResponseFromToolResults dir rs2) ∧
    (∀ (dir : List (String × HAState)) (rs : List ToolResult)
        (last : ToolResult) (s : EntitySummary),
      rs.getLast? = some last → last.name = "call_service" →
      truthyS (targetEntityId last.input) = true →
      getEntitySummary dir (orDefault (targetEntityId last.input) "") =
        some s →
      ((last.input.bind (fun i => i.service) = some "turn_on" →
          renderResponseFromToolResults dir rs = "Turned on " ++ s.name ++ ".") ∧
       (last.input.bind (fun i => i.service) = some "turn_off" →
          renderResponseFromToolResults dir rs = "Turned off " ++ s.name ++ ".") ∧
       (last.input.bind (fun i => i.service) ≠ some "turn_on" →
        last.input.bind (fun i => i.service) ≠ some "turn_off" →
          renderResponseFromToolResults dir rs = "Done."))) ∧
    (∀ (dir : List (String × HAState)) (rs : List ToolResult)
        (last : ToolResult),
      rs.getLast? = some last → last.name = "call_service" →
      (truthyS (targetEntityId last.input) = false ∨
        getEntitySummary dir (orDefault (targetEntityId last.input) "") =
          none) →
      renderResponseFromToolResults dir rs = "Done.") ∧
    (∀ (dir : List (String × HAState)) (rs : List ToolResult)
        (last : ToolResult) (st : HAState),
      rs.getLast? = some last → last.name = "get_entity_state" →
      last.result = ToolOutcome.stateObj st →
      renderResponseFromToolResults dir rs =
        orDefault st.attributes.friendly_name st.entity_id ++ " is " ++
          st.state ++ orDefault st.attributes.unit_of_measurement "" ++ ".") ∧
    (∀ (dir : List (String × HAState)) (rs : List ToolResult)
        (last : ToolResult),
      rs.getLast? = some last → last.name ≠ "call_service" →
      last.name ≠ "get_entity_state" →
      renderResponseFromToolResults dir rs = "Done.") := by
  refine ⟨?_, ?_, ?_, ?_, ?_⟩
  · intro dir rs1 rs2 h
    rw [renderResponseFromToolResults, renderResponseFromToolResults, h]
  · intro dir rs last s hlast hname htruthy hsum
    rw [renderResponseFromToolResults, hlast]
    simp only [hname, if_true, htruthy, if_true, hsum]
    refine ⟨?_, ?_, ?_⟩
    · intro hsvc; rw [hsvc]; simp
    · intro hsvc; rw [hsvc]; simp
    · intro h1 h2
      rw [if_neg (by simpa using h1), if_neg (by simpa using h2)]
  · intro dir rs last hlast hname hbad
    rw [renderResponseFromToolResults, hlast]
    simp only [hname, if_true]
    rcases hbad with hb | hb
    · rw [hb]; simp
    · by_cases ht : truthyS (targetEntityId last.input) = true
      · simp only [ht, if_true, hb]
      · have : truthyS (targetEntityId last.input) = false := by
          revert ht; cases truthyS (targetEntityId last.input) <;> simp
        rw [this]; simp
  · intro dir rs last st hlast hname hres
    have hcs : last.name ≠ "call_service" := by rw [hname]; decide
    simp only [renderResponseFromToolResults, hlast]
    rw [if_neg hcs, if_pos hname]
    simp only [hres]
    rw [formatStateForSpeech]
    by_cases hu : orDefault st.attributes.unit_of_measurement "" ≠ ""
    · rw [if_pos hu]
    · rw [if_neg hu]
      push_neg at hu
      rw [hu]
      simp
  · intro dir rs last hlast h1 h2
    simp only [renderResponseFromToolResults, hlast]
    rw [if_neg h1, if_neg h2]

/-- C6 witness: render of a turn_off on `light.bedroom` with a known
summary, and of a temperature read with a unit. -/
theorem C6_render_last_result_witness :
    renderResponseFromToolResults
        [("light.bedroom", HAState.mk "light.bedroom" "on" (HAAttributes.mk (some "Bedroom Light") none))]
        [ToolResult.mk "call_service" (some (ToolInput.mk (some "light") (some "turn_off") (some (ServiceTarget.mk (some "light.bedroom") none)) none none)) (ToolOutcome.serviceOk "Called light.turn_off")] =
      "Turned off Bedroom Light." ∧
    renderResponseFromToolResults []
        [ToolResult.mk "get_entity_state" (some (ToolInput.mk none none none (some "sensor.pool_temperature") none)) (ToolOutcome.stateObj (HAState.mk "sensor.pool_temperature" "82.1" (HAAttributes.mk (some "Pool Temperature") (some "F"))))] =
      "Pool Temperature is 82.1F." := by
  constructor
  · exact ((C6_render_last_result.2.1
      [("light.bedroom", HAState.mk "light.bedroom" "on" (HAAttributes.mk (some "Bedroom Light") none))]
      [ToolResult.mk "call_service" (some (ToolInput.mk (some "light") (some "turn_off") (some (ServiceTarget.mk (some "light.bedroom") none)) none none)) (ToolOutcome.serviceOk "Called light.turn_off")]
      (ToolResult.mk "call_service" (some (ToolInput.mk (some "light") (some "turn_off") (some (ServiceTarget.mk (some "light.bedroom") none)) none none)) (ToolOutcome.serviceOk "Called light.turn_off"))
      (EntitySummary.mk "light.bedroom" "Bedroom Light" "light" (HAAttributes.mk (some "Bedroom Light") none))
      rfl rfl (by decide) (by decide)).2.1 rfl)
  · exact (C6_render_last_result.2.2.2.1 []
      [ToolResult.mk "get_entity_state" (some (ToolInput.mk none none none (some "sensor.pool_temperature") none)) (ToolOutcome.stateObj (HAState.mk "sensor.pool_temperature" "82.1" (HAAttributes.mk (some "Pool Temperature") (some "F"))))]
      (ToolResult.mk "get_entity_state" (some (ToolInput.mk none none none (some "sensor.pool_temperature") none)) (ToolOutcome.stateObj (HAState.mk "sensor.pool_temperature" "82.1" (HAAttributes.mk (some "Pool Temperature") (some "F")))))
      (HAState.mk "sensor.pool_temperature" "82.1" (HAAttributes.mk (some "Pool Temperature") (some "F")))
      rfl rfl rfl)

/-! ### C7 — callService fails NotFound on a missing target and submits
no control request -/

/-- C7: if `callService` is given a target entity id that is absent from
the hub inventory (so it is still missing from the directory snapshot
after the forced refresh), the call ends in the NotFound-class error and
no control request is submitted to the hub; the only directory effect is
the refresh itself. -/
theorem C7_notfound_no_request
    (env : HubEnv) (dir : DirState) (dom svc : Option String)
    (tgt : Option ServiceTarget) (id : String)
    (hdom : truthyS dom = true) (hsvc : truthyS svc = true)
    (htgt : tgt.bind (fun t => t.entity_id) = some id) (hid : id ≠ "")
    (hfetch : env.fetchOk = true)
    (habsent_env : statesFind (indexStatesL env.states) id = none)
    (habsent_dir : statesFind dir.snapshot id = none) :
    callService env dir dom svc tgt =
      (.error (.notFound id), ⟨indexStatesL env.states, false⟩, []) := by
  have htr : truthyS (tgt.bind (fun t => t.entity_id)) = true := by
    rw [htgt]; simpa [truthyS] using hid
  have hod : orDefault (tgt.bind (fun t => t.entity_id)) "" = id := by
    rw [htgt]; simp [orDefault, hid]
  rw [callService]
  rw [if_neg (by rw [hdom]; decide), if_neg (by rw [hsvc]; decide)]
  simp only [htr, if_true, hod]
  cases hst : dir.stale with
  | true =>
    simp [hfetch, habsent_env]
  | false =>
    simp [hfetch, habsent_dir, habsent_env]

/-- C7 witness: a hub whose inventory has only the bedroom light, and a
call targeting a deleted pool pump. -/
theorem C7_notfound_no_request_witness :
    callService
        (HubEnv.mk [HAState.mk "light.bedroom" "on" (HAAttributes.mk (some "Bedroom Light") none)] true 200 true 200 "")
        (DirState.mk [] true) (some "switch") (some "turn_on")
        (some (ServiceTarget.mk (some "switch.pool_pump") none)) =
      (.error (.notFound "switch.pool_pump"),
       ⟨indexStatesL [HAState.mk "light.bedroom" "on" (HAAttributes.mk (some "Bedroom Light") none)], false⟩, []) :=
  C7_notfound_no_request _ _ _ _ _ "switch.pool_pump"
    (by decide) (by decide) (by decide) (by decide) (by decide)
    (by decide) (by decide)

/-! ### C8 — single-flight refresh -/

/-- C8 as stated is false: a `refreshStates` call made while a fetch is in
flight does not always join that fetch — a non-forced call that finds the
snapshot still fresh returns immediately (the `!force && !stale` early
exit precedes the in-flight check), so it never observes the in-flight
fetch's outcome.  Concretely: guard installed, data refreshed at time
1000 with a 5000ms TTL, a non-forced call at 1001 returns `skipped`, not
`joined`. -/
theorem C8_counterexample :
    (refreshBegin (SFState.mk true 1000 5000) false 1001).1 =
        RefreshReturn.skipped ∧
      RefreshReturn.skipped ≠ RefreshReturn.joined := by decide

/-- C8 (amended): while a fetch is in flight no call starts a second fetch
and the state is unchanged; a call that passes the freshness gate (forced,
or stale data) while a fetch is in flight joins that fetch's outcome (a
non-forced call on fresh data returns immediately instead); the settle
handler clears the in-flight guard even when the fetch failed; and along
every well-formed event trace started with no fetch outstanding, the
number of fetches started never exceeds the number settled plus one — at
most one fetch is ever outstanding. -/
theorem sfStep_call_split (st : SFState) (force : Bool) (now : Nat) :
    sfStep st (SFEvent.call force now) = (st, 0) ∨
    (st.inFlight = false ∧
      sfStep st (SFEvent.call force now) =
        ({ st with inFlight := true }, 1)) := by
  simp only [sfStep, refreshBegin]
  by_cases hg : (!force &&
      !decide (st.statesTtlMs < now - st.lastStatesRefreshAt)) = true
  · left; simp [hg]
  · rw [Bool.not_eq_true] at hg
    by_cases hin : st.inFlight = true
    · left; simp [hg, hin]
    · right
      rw [Bool.not_eq_true] at hin
      exact ⟨hin, by simp [hg, hin]⟩

theorem sfRun_outstanding (evs : List SFEvent) :
    ∀ st : SFState, sfWellFormed st evs = true →
      (sfRun st evs).2.1 + (if st.inFlight then 1 else 0) =
        (sfRun st evs).2.2 +
          (if (sfRun st evs).1.inFlight then 1 else 0) := by
  induction evs with
  | nil => intro st _; simp [sfRun]
  | cons e rest ih =>
    intro st hwf
    cases e with
    | call force now =>
      have hwf' : sfWellFormed (sfStep st (SFEvent.call force now)).1 rest =
          true := by simpa [sfWellFormed] using hwf
      rcases sfStep_call_split st force now with hs | ⟨hin, hs⟩
      · rw [hs] at hwf'
        have hrec := ih st hwf'
        simp only [sfRun, hs]
        omega
      · rw [hs] at hwf'
        have hrec := ih { st with inFlight := true } hwf'
        simp only [sfRun, hs]
        simp only [hin, Bool.false_eq_true, if_false, if_true] at hrec ⊢
        omega
    | settle ok now =>
      have hin : st.inFlight = true := by
        by_contra hc
        rw [Bool.not_eq_true] at hc
        simp [sfWellFormed, hc] at hwf
      have hwf' : sfWellFormed (sfStep st (SFEvent.settle ok now)).1 rest =
          true := by
        simp only [sfWellFormed, hin, Bool.true_and] at hwf
        exact hwf
      have hs : sfStep st (SFEvent.settle ok now) =
          (refreshSettle st ok now, 0) := rfl
      rw [hs] at hwf'
      have hrec := ih (refreshSettle st ok now) hwf'
      have hfin : (refreshSettle st ok now).inFlight = false := by
        cases ok <;> simp [refreshSettle]
      simp only [sfRun, hs, hfin, hin, if_true, Bool.false_eq_true,
        if_false] at hrec ⊢
      omega

/-- C8 (amended): while a fetch is in flight no call starts a second fetch
and the state is unchanged; a call that passes the freshness gate (forced,
or stale data) while a fetch is in flight joins that fetch's outcome (a
non-forced call on fresh data returns immediately instead); the settle
handler clears the in-flight guard even when the fetch failed; and along
every well-formed event trace started with no fetch outstanding, the
number of fetches started never exceeds the number settled plus one — at
most one fetch is ever outstanding. -/
theorem C8_single_flight :
    (∀ (st : SFState) (force : Bool) (now : Nat), st.inFlight = true →
      ((refreshBegin st force now).1 ≠ RefreshReturn.started ∧
        (refreshBegin st force now).2 = st)) ∧
    (∀ (st : SFState) (force : Bool) (now : Nat), st.inFlight = true →
      (force = true ∨ st.statesTtlMs < now - st.lastStatesRefreshAt) →
      (refreshBegin st force now).1 = RefreshReturn.joined) ∧
    (∀ (st : SFState) (ok : Bool) (t : Nat),
      (refreshSettle st ok t).inFlight = false) ∧
    (∀ (evs : List SFEvent) (st : SFState), st.inFlight = false →
      sfWellFormed st evs = true →
      (sfRun st evs).2.1 ≤ (sfRun st evs).2.2 + 1) := by
  refine ⟨?_, ?_, ?_, ?_⟩
  · intro st force now hin
    rw [refreshBegin]
    by_cases h : (!force &&
        !decide (st.statesTtlMs < now - st.lastStatesRefreshAt)) = true
    · rw [if_pos h]
      refine ⟨?_, rfl⟩
      simp
    · rw [Bool.not_eq_true] at h
      rw [h]
      simp [hin]
  · intro st force now hin hgate
    rw [refreshBegin]
    have h : (!force &&
        !decide (st.statesTtlMs < now - st.lastStatesRefreshAt)) = false := by
      rcases hgate with hg | hg
      · simp [hg]
      · simp [hg]
    rw [h]
    simp [hin]
  · intro st ok t
    cases ok <;> simp [refreshSettle]
  · intro evs st hin hwf
    have := sfRun_outstanding evs st hwf
    rw [hin] at this
    by_cases hfin : (sfRun st evs).1.inFlight = true
    · rw [hfin] at this; simp at this; omega
    · rw [Bool.not_eq_true] at hfin
      rw [hfin] at this; simp at this; omega

/-- C8 witness: a forced call joining an in-flight fetch, a failed settle
clearing the guard, and a concrete well-formed trace with two concurrent
forced calls producing one fetch. -/
theorem C8_single_flight_witness :
    (refreshBegin (SFState.mk true 0 5000) true 10).1 =
        RefreshReturn.joined ∧
      (refreshSettle (SFState.mk true 0 5000) false 20).inFlight = false ∧
      (sfRun (SFState.mk false 0 5000) [SFEvent.call true 10,
        SFEvent.call true 11, SFEvent.settle false 20]).2.1 ≤
        (sfRun (SFState.mk false 0 5000) [SFEvent.call true 10,
          SFEvent.call true 11, SFEvent.settle false 20]).2.2 + 1 :=
  ⟨C8_single_flight.2.1 (SFState.mk true 0 5000) true 10 rfl (Or.inl rfl),
   C8_single_flight.2.2.1 (SFState.mk true 0 5000) false 20,
   C8_single_flight.2.2.2 [SFEvent.call true 10, SFEvent.call true 11,
     SFEvent.settle false 20] (SFState.mk false 0 5000) rfl (by decide)⟩

/-! ### C9 — the tool-use loop has no round ceiling -/

/-- C9 as stated is false: the loop enforces no ceiling on model rounds.
A scripted run with 9 consecutive tool_use responses completes normally
after 10 model calls — more than the claimed ceiling of 8 — and raises no
internal error (the loop has no error outcome at all; it simply keeps
iterating while the model keeps requesting tools). -/
theorem C9_counterexample :
    processVoiceCommandLoop
        (List.replicate 9 (ModelResponse.mk "tool_use" none []) ++
          [ModelResponse.mk "end_turn" (some "ok") []]) =
      LoopOutcome.finished "ok" 10 [] ∧ ¬ (10 ≤ 8) := by decide

/-- C9 (amended): the loop enforces no ceiling and raises no error: for
every scripted response list that opens with `n` tool_use responses
followed by a terminal one, the loop makes exactly `n + 1` model calls and
finishes with the terminal response's text, accumulating every requested
tool invocation; consequently, for every bound `n` there is a script on
which the loop performs more than `n` model calls. -/
theorem C9_no_round_ceiling :
    (∀ (pre : List ModelResponse) (r : ModelResponse)
        (post : List ModelResponse),
      (∀ x ∈ pre, x.stop_reason = "tool_use") → r.stop_reason ≠ "tool_use" →
      processVoiceCommandLoop (pre ++ r :: post) =
        LoopOutcome.finished (orDefault r.text "Done.") (pre.length + 1)
          (pre.foldl (fun acc x => acc ++ x.toolUses) [])) ∧
    (∀ n : Nat,
      (processVoiceCommandLoop
          (List.replicate n (ModelResponse.mk "tool_use" none []) ++
            [ModelResponse.mk "end_turn" (some "ok") []])).modelCallCount =
        n + 1) := by
  have main : ∀ (pre : List ModelResponse) (r : ModelResponse)
      (post : List ModelResponse) (k : Nat) (seen : List ToolCall),
      (∀ x ∈ pre, x.stop_reason = "tool_use") → r.stop_reason ≠ "tool_use" →
      runToolUseLoop (pre ++ r :: post) k seen =
        LoopOutcome.finished (orDefault r.text "Done.") (k + pre.length)
          (pre.foldl (fun acc x => acc ++ x.toolUses) seen) := by
    intro pre
    induction pre with
    | nil =>
      intro r post k seen _ hr
      simp only [List.nil_append, runToolUseLoop, List.foldl_nil]
      rw [if_neg hr]
      simp
    | cons x rest ih =>
      intro r post k seen hall hr
      have hx : x.stop_reason = "tool_use" := hall x (by simp)
      simp only [List.cons_append, runToolUseLoop]
      rw [if_pos hx]
      simp only [List.append_eq]
      rw [ih r post (k + 1) (seen ++ x.toolUses)
        (fun y hy => hall y (List.mem_cons_of_mem x hy)) hr]
      simp only [List.foldl_cons, List.length_cons]
      congr 1
      omega
  constructor
  · intro pre r post hall hr
    have := main pre r post 1 [] hall hr
    rw [processVoiceCommandLoop, this]
    congr 1
    omega
  · intro n
    have := main (List.replicate n (ModelResponse.mk "tool_use" none []))
      (ModelResponse.mk "end_turn" (some "ok") []) [] 1 []
      (fun x hx => by
        have := List.eq_of_mem_replicate hx
        rw [this])
      (by decide)
    rw [processVoiceCommandLoop, this]
    simp [LoopOutcome.modelCallCount]
    omega

/-- C9 witness: the amended round count at a concrete 3-tool_use script. -/
theorem C9_no_round_ceiling_witness :
    processVoiceCommandLoop
        (List.replicate 3 (ModelResponse.mk "tool_use" none []) ++
          (ModelResponse.mk "end_turn" (some "All set.") []) :: []) =
      LoopOutcome.finished "All set." 4 [] :=
  by
  have := C9_no_round_ceiling.1
    (List.replicate 3 (ModelResponse.mk "tool_use" none []))
    (ModelResponse.mk "end_turn" (some "All set.") []) []
    (fun x hx => by rw [List.eq_of_mem_replicate hx])
    (by decide)
  rw [this]
  decide

/-! ### C1 — findEntities vs resolveEntityId scoring -/

/-- C1 as stated is false: `findEntities` does not apply the −10
unknown/unavailable penalty — only `resolveEntityId` does.  For the
unavailable entity "Pool Pump" (`switch.pool_pump`) and search
"pool pump", `findEntities` scores 10 (two token matches at 3, two
id-substring bonuses at 1, whole-phrase bonus 2) while the resolver
scores 0: the two operations do not assign the identical score. -/
theorem C1_counterexample :
    findScore "pool pump"
        (mkEntity "switch.pool_pump" (some "Pool Pump") "unavailable") = 10 ∧
    resolveScore "pool pump"
        (mkEntity "switch.pool_pump" (some "Pool Pump") "unavailable") = 0 ∧
    resolveScore "pool pump"
        (mkEntity "switch.pool_pump" (some "Pool Pump") "unavailable") ≠
      findScore "pool pump"
        (mkEntity "switch.pool_pump" (some "Pool Pump") "unavailable") := by
  decide

/-- C1 (amended): the resolver's score is the findEntities score minus the
−10 penalty term, so the two scores agree exactly on entities whose state
is neither "unknown" nor "unavailable" (token matches, id-substring bonus
and whole-phrase +2 included); and the search branch of `findEntities`
keeps exactly the strictly positive findEntities scores, sorted
descending, truncated to 50. -/
theorem C1_scoring_refinement :
    (∀ (search : String) (e : Entity),
      resolveScore search e =
        findScore search e -
          (if e.state = "unknown" ∨ e.state = "unavailable" then 10 else 0)) ∧
    (∀ (search : String) (e : Entity),
      e.state ≠ "unknown" → e.state ≠ "unavailable" →
      resolveScore search e = findScore search e) ∧
    (∀ (entities : List Entity) (search : String),
      (∀ p ∈ findEntitiesSearch entities search,
        0 < p.2 ∧ p.2 = findScore search p.1 ∧ p.1 ∈ entities) ∧
      (findEntitiesSearch entities search).Pairwise
        (fun a b => b.2 ≤ a.2) ∧
      (findEntitiesSearch entities search).length =
        min 50
          ((entities.filter (fun e => 0 < findScore search e)).length)) := by
  have hA : ∀ (search : String) (e : Entity),
      resolveScore search e =
        findScore search e -
          (if e.state = "unknown" ∨ e.state = "unavailable" then 10 else 0) := by
    intro search e
    simp only [resolveScore, findScore]
    by_cases h1 : e.state = "unknown"
    · simp [h1]
    · by_cases h2 : e.state = "unavailable"
      · simp [h1, h2]
      · simp [h1, h2]
  have htrans : ∀ a b c : Entity × Int, byScoreDesc a b = true →
      byScoreDesc b c = true → byScoreDesc a c = true := by
    intro a b c hab hbc
    simp only [byScoreDesc, decide_eq_true_eq] at hab hbc ⊢
    omega
  have htotal : ∀ a b : Entity × Int,
      (byScoreDesc a b || byScoreDesc b a) = true := by
    intro a b
    simp only [byScoreDesc]
    rcases Int.le_total b.2 a.2 with h | h <;> simp [h]
  refine ⟨hA, ?_, ?_⟩
  · intro search e h1 h2
    rw [hA search e, if_neg (by tauto)]
    simp
  · intro entities search
    refine ⟨?_, ?_, ?_⟩
    · intro p hp
      have hp1 : p ∈ ((entities.map
          (fun e => (e, findScore search e))).filter
            (fun r => 0 < r.2)).mergeSort byScoreDesc :=
        List.mem_of_mem_take hp
      have hp2 : p ∈ (entities.map
          (fun e => (e, findScore search e))).filter (fun r => 0 < r.2) :=
        ((List.mergeSort_perm _ byScoreDesc).mem_iff).mp hp1
      have hp3 := List.mem_filter.mp hp2
      have hp4 : p ∈ entities.map (fun e => (e, findScore search e)) := hp3.1
      have hp5 : 0 < p.2 := by simpa using hp3.2
      obtain ⟨e, he, hpe⟩ := List.mem_map.mp hp4
      refine ⟨hp5, ?_, ?_⟩
      · rw [← hpe]
      · rw [← hpe]; exact he
    · have hsorted := List.sorted_mergeSort htrans htotal
        ((entities.map (fun e => (e, findScore search e))).filter
          (fun r => 0 < r.2))
      have := hsorted.sublist
        (List.take_sublist 50 _)
      exact this.imp (fun h => by
        simpa [byScoreDesc, decide_eq_true_eq] using h)
    · rw [findEntitiesSearch, List.length_take,
        (List.mergeSort_perm _ byScoreDesc).length_eq]
      congr 1
      rw [List.filter_map]
      rw [List.length_map]
      congr 1

/-- C1 witness: on an entity in a normal state the two scores coincide. -/
theorem C1_scoring_refinement_witness :
    resolveScore "pool pump"
        (mkEntity "switch.pool_pump" (some "Pool Pump") "on") =
      findScore "pool pump"
        (mkEntity "switch.pool_pump" (some "Pool Pump") "on") :=
  C1_scoring_refinement.2.1 "pool pump"
    (mkEntity "switch.pool_pump" (some "Pool Pump") "on")
    (by decide) (by decide)

/-! ### C2 — normalizer idempotence

The counterexample is immediate; the amended conditional idempotence needs
a development about word boundaries, whitespace shape and the scanners. -/

/-- C2 as stated is false: filler-word deletion runs after the
switch→turn rule, so deleting "the" from "switch the on light" juxtaposes
"switch" and "on"; the first normalization yields "switch on light" and a
second one rewrites it to "turn on light". -/
theorem C2_counterexample :
    normalizeUtterance (normalizeUtterance "switch the on light") ≠
      normalizeUtterance "switch the on light" := by decide

theorem ws_not_word {c : Char} (h : isWs c = true) : isWordChar c = false := by
  simp only [isWs, Bool.or_eq_true, decide_eq_true_eq] at h
  rcases h with ((h | h) | h) | h <;> subst h <;> decide

theorem word_not_ws {c : Char} (h : isWordChar c = true) : isWs c = false := by
  by_contra hc
  rw [Bool.not_eq_false] at hc
  rw [ws_not_word hc] at h
  exact absurd h (by decide)

theorem toNat_ofNat_valid (n : Nat) (h : n.isValidChar) :
    (Char.ofNat n).toNat = n := by
  simp [Char.ofNat, h, Char.ofNatAux, Char.toNat, UInt32.toNat]

theorem lowerC_idem (c : Char) : lowerC (lowerC c) = lowerC c := by
  by_cases h : (65 ≤ c.toNat && c.toNat ≤ 90) = true
  · have hb : 65 ≤ c.toNat ∧ c.toNat ≤ 90 := by
      simpa [Bool.and_eq_true, decide_eq_true_eq] using h
    have hval : (c.toNat + 32).isValidChar := Or.inl (by omega)
    have h1 : lowerC c = Char.ofNat (c.toNat + 32) := by
      rw [lowerC, if_pos h]
    rw [h1, lowerC, toNat_ofNat_valid _ hval, if_neg (by
      simp only [Bool.and_eq_true, decide_eq_true_eq, not_and]
      omega)]
  · have h1 : lowerC c = c := by rw [lowerC, if_neg h]
    rw [h1]
    exact h1

theorem takeWhile_append_allfail {p : Char → Bool} {ys : List Char}
    (hys : ∀ c ∈ ys, p c = false) :
    ∀ xs : List Char, (xs ++ ys).takeWhile p = xs.takeWhile p := by
  intro xs
  induction xs with
  | nil =>
    simp only [List.nil_append, List.takeWhile_nil]
    cases ys with
    | nil => rfl
    | cons y ys' =>
      rw [List.takeWhile_cons, hys y (by simp)]
      simp
  | cons x xs' ih =>
    rw [List.cons_append, List.takeWhile_cons, List.takeWhile_cons]
    cases hp : p x
    · rfl
    · rw [ih]

theorem dropWhile_append_allfail {p : Char → Bool} {ys : List Char}
    (hys : ∀ c ∈ ys, p c = false) :
    ∀ xs : List Char, (xs ++ ys).dropWhile p = xs.dropWhile p ++ ys := by
  intro xs
  induction xs with
  | nil =>
    simp only [List.nil_append, List.dropWhile_nil]
    cases ys with
    | nil => rfl
    | cons y ys' =>
      rw [List.dropWhile_cons, hys y (by simp)]
      simp
  | cons x xs' ih =>
    rw [List.cons_append, List.dropWhile_cons, List.dropWhile_cons]
    cases hp : p x
    · simp
    · simpa using ih

theorem dropWhile_head_fail {p : Char → Bool} :
    ∀ (l : List Char) (d : Char), (l.dropWhile p).head? = some d →
      p d = false := by
  intro l
  induction l with
  | nil => intro d h; simp at h
  | cons c cs ih =>
    intro d h
    rw [List.dropWhile_cons] at h
    cases hp : p c
    · rw [hp] at h
      simp only [Bool.false_eq_true, if_false, List.head?_cons,
        Option.some.injEq] at h
      rw [← h]
      exact hp
    · rw [hp] at h
      simp only [if_true] at h
      exact ih d h

theorem dropWhile_eq_self_of_head_fail {p : Char → Bool} {l : List Char}
    (h : ∀ d, l.head? = some d → p d = false) : l.dropWhile p = l := by
  cases l with
  | nil => rfl
  | cons c cs =>
    rw [List.dropWhile_cons, h c rfl]
    rfl

theorem tw_dw_exact {w m : List Char}
    (hw : ∀ c ∈ w, isWordChar c = true) (hm : noWordAdj m.head? = true) :
    (w ++ m).takeWhile isWordChar = w ∧
      (w ++ m).dropWhile isWordChar = m := by
  induction w with
  | nil =>
    simp only [List.nil_append, List.takeWhile_nil]
    constructor
    · cases m with
      | nil => rfl
      | cons d m' =>
        rw [List.takeWhile_cons]
        simp only [noWordAdj, List.head?_cons] at hm
        rw [Bool.not_eq_true'] at hm
        rw [hm]
        simp
    · apply dropWhile_eq_self_of_head_fail
      intro d hd
      rw [hd] at hm
      simpa [noWordAdj] using hm
  | cons c w' ih =>
    have hc : isWordChar c = true := hw c (by simp)
    have ih' := ih (fun x hx => hw x (by simp [hx]))
    rw [List.cons_append, List.takeWhile_cons, List.dropWhile_cons, hc]
    simp only [if_true]
    exact ⟨by rw [ih'.1], by rw [ih'.2]⟩

theorem append_drop_of_isPrefixOf :
    ∀ {w l : List Char}, w.isPrefixOf l = true → w ++ l.drop w.length = l := by
  intro w
  induction w with
  | nil => intro l _; simp
  | cons c w' ih =>
    intro l h
    cases l with
    | nil => simp [List.isPrefixOf] at h
    | cons d l' =>
      simp only [List.isPrefixOf, Bool.and_eq_true, beq_iff_eq] at h
      obtain ⟨hcd, hw'⟩ := h
      simp only [List.length_cons, List.drop_succ_cons, List.cons_append,
        hcd]
      rw [ih hw']

theorem isPrefixOf_append_self :
    ∀ (w t : List Char), w.isPrefixOf (w ++ t) = true := by
  intro w t
  induction w with
  | nil => simp [List.isPrefixOf]
  | cons c w' ih => simp [List.isPrefixOf, ih]

theorem wordRuns_nil : wordRuns [] = [] := by
  rw [wordRuns]

theorem wordRuns_cons (c : Char) (cs : List Char) :
    wordRuns (c :: cs) =
      if isWordChar c then
        (c :: cs.takeWhile isWordChar) :: wordRuns (cs.dropWhile isWordChar)
      else wordRuns cs := by
  rw [wordRuns]

theorem wordRuns_cons_nonword {c : Char} {cs : List Char}
    (h : isWordChar c = false) : wordRuns (c :: cs) = wordRuns cs := by
  rw [wordRuns_cons, h]
  simp

theorem wordRuns_append_word {w m : List Char} (hw : w ≠ [])
    (hwc : ∀ c ∈ w, isWordChar c = true) (hm : noWordAdj m.head? = true) :
    wordRuns (w ++ m) = w :: wordRuns m := by
  cases w with
  | nil => exact absurd rfl hw
  | cons c wt =>
    have hc : isWordChar c = true := hwc c (by simp)
    have hex := tw_dw_exact (w := wt) (m := m)
      (fun x hx => hwc x (by simp [hx])) hm
    rw [List.cons_append, wordRuns_cons, hc]
    simp only [if_true]
    rw [hex.1, hex.2]

theorem wordRuns_all_nonword {m : List Char}
    (h : ∀ c ∈ m, isWordChar c = false) : wordRuns m = [] := by
  induction m with
  | nil => exact wordRuns_nil
  | cons c cs ih =>
    rw [wordRuns_cons_nonword (h c (by simp))]
    exact ih (fun x hx => h x (by simp [hx]))

theorem wordRuns_append_nonword {ys : List Char}
    (hys : ∀ c ∈ ys, isWordChar c = false) :
    ∀ (n : Nat) (xs : List Char), xs.length ≤ n →
      wordRuns (xs ++ ys) = wordRuns xs := by
  intro n
  induction n with
  | zero =>
    intro xs hlen
    rw [List.length_eq_zero.mp (Nat.le_zero.mp hlen)]
    rw [List.nil_append, wordRuns_nil]
    exact wordRuns_all_nonword hys
  | succ n ih =>
    intro xs hlen
    cases xs with
    | nil =>
      rw [List.nil_append, wordRuns_nil]
      exact wordRuns_all_nonword hys
    | cons c cs =>
      by_cases hc : isWordChar c = true
      · rw [List.cons_append, wordRuns_cons, wordRuns_cons, hc]
        simp only [if_true]
        rw [takeWhile_append_allfail hys cs, dropWhile_append_allfail hys cs]
        have hdw : (cs.dropWhile isWordChar).length ≤ n := by
          have h1 := (List.dropWhile_sublist (l := cs)
            (p := isWordChar)).length_le
          simp only [List.length_cons] at hlen
          omega
        rw [ih (cs.dropWhile isWordChar) hdw]
      · rw [Bool.not_eq_true] at hc
        rw [List.cons_append, wordRuns_cons_nonword hc,
          wordRuns_cons_nonword hc]
        have : cs.length ≤ n := by
          simp only [List.length_cons] at hlen; omega
        exact ih cs this

theorem wordRuns_dropWhile_ws (l : List Char) :
    wordRuns (l.dropWhile isWs) = wordRuns l := by
  induction l with
  | nil => rfl
  | cons c cs ih =>
    rw [List.dropWhile_cons]
    cases hws : isWs c
    · simp
    · simp only [if_true]
      rw [ih, wordRuns_cons_nonword (ws_not_word hws)]

theorem wordRuns_trimL (l : List Char) : wordRuns (trimL l) = wordRuns l := by
  rw [trimL]
  set m := l.dropWhile isWs with hm
  have h1 : wordRuns m = wordRuns l := wordRuns_dropWhile_ws l
  have hdecomp : m = (m.reverse.dropWhile isWs).reverse ++
      (m.reverse.takeWhile isWs).reverse := by
    conv_lhs => rw [← m.reverse_reverse,
      ← List.takeWhile_append_dropWhile isWs m.reverse]
    rw [List.reverse_append]
  have hws : ∀ c ∈ (m.reverse.takeWhile isWs).reverse,
      isWordChar c = false := by
    intro c hc
    rw [List.mem_reverse] at hc
    exact ws_not_word (List.mem_takeWhile_imp hc)
  have h2 := wordRuns_append_nonword hws
    ((m.reverse.dropWhile isWs).reverse).length
    ((m.reverse.dropWhile isWs).reverse) le_rfl
  rw [← h1]
  conv_rhs => rw [hdecomp]
  rw [h2]

theorem collapseAux_append_nonws {xs : List Char}
    (hxs : ∀ c ∈ xs, isWs c = false) (ys : List Char) :
    collapseAux false (xs ++ ys) = xs ++ collapseAux false ys := by
  induction xs with
  | nil => simp
  | cons x xs' ih =>
    rw [List.cons_append, collapseAux, hxs x (by simp)]
    simp only [Bool.false_eq_true, if_false]
    rw [ih (fun c hc => hxs c (by simp [hc]))]
    rfl

theorem collapseAux_head_nonword {m : List Char}
    (hm : noWordAdj m.head? = true) :
    noWordAdj ((collapseAux false m).head?) = true := by
  cases m with
  | nil => simp [collapseAux, noWordAdj]
  | cons d dr =>
    rw [collapseAux]
    cases hws : isWs d
    · simp only [Bool.false_eq_true, if_false, List.head?_cons]
      simpa [noWordAdj] using hm
    · simp only [if_true, Bool.false_eq_true, if_false, List.head?_cons]
      simp [noWordAdj]
      decide

theorem wordRuns_collapseAux :
    ∀ (n : Nat) (l : List Char), l.length ≤ n → ∀ b,
      wordRuns (collapseAux b l) = wordRuns l := by
  intro n
  induction n with
  | zero =>
    intro l hlen b
    rw [List.length_eq_zero.mp (Nat.le_zero.mp hlen)]
    rfl
  | succ n ih =>
    intro l hlen b
    cases l with
    | nil => rfl
    | cons c cs =>
      rw [collapseAux]
      cases hws : isWs c
      · simp only [Bool.false_eq_true, if_false]
        by_cases hw : isWordChar c = true
        · have hsplit := List.takeWhile_append_dropWhile
            (p := isWordChar) (l := cs)
          have htw_nonws : ∀ x ∈ cs.takeWhile isWordChar, isWs x = false :=
            fun x hx => word_not_ws (List.mem_takeWhile_imp hx)
          have hdw_head : noWordAdj ((cs.dropWhile isWordChar).head?) =
              true := by
            cases hh : (cs.dropWhile isWordChar).head? with
            | none => simp [noWordAdj]
            | some d =>
              simp only [noWordAdj]
              rw [dropWhile_head_fail cs d hh]
              rfl
          have hstep : collapseAux false cs =
              cs.takeWhile isWordChar ++
                collapseAux false (cs.dropWhile isWordChar) := by
            conv_lhs => rw [← hsplit]
            exact collapseAux_append_nonws htw_nonws _
          rw [hstep, wordRuns_cons, hw]
          simp only [if_true]
          have hex := tw_dw_exact (w := cs.takeWhile isWordChar)
            (m := collapseAux false (cs.dropWhile isWordChar))
            (fun x hx => List.mem_takeWhile_imp hx)
            (collapseAux_head_nonword hdw_head)
          rw [hex.1, hex.2]
          have hlen2 : (cs.dropWhile isWordChar).length ≤ n := by
            have := (List.dropWhile_sublist (l := cs)
              (p := isWordChar)).length_le
            simp only [List.length_cons] at hlen
            omega
          rw [ih _ hlen2 false, wordRuns_cons, hw]
          simp
        · rw [Bool.not_eq_true] at hw
          rw [wordRuns_cons_nonword hw, wordRuns_cons_nonword hw]
          have : cs.length ≤ n := by
            simp only [List.length_cons] at hlen; omega
          exact ih cs this false
      · have hnw : isWordChar c = false := ws_not_word hws
        have hcslen : cs.length ≤ n := by
          simp only [List.length_cons] at hlen; omega
        cases b
        · simp only [Bool.false_eq_true, if_false, if_true]
          rw [wordRuns_cons_nonword (by decide : isWordChar ' ' = false)]
          rw [ih cs hcslen true, wordRuns_cons_nonword hnw]
        · simp only [if_true]
          rw [ih cs hcslen true, wordRuns_cons_nonword hnw]

theorem wordRuns_collapseWs (l : List Char) :
    wordRuns (collapseWs l) = wordRuns l :=
  wordRuns_collapseAux l.length l le_rfl false

theorem wsCanon_cons_elim {c : Char} {cs : List Char}
    (h : wsCanon (c :: cs) = true) :
    wsCanon cs = true ∧
      (isWs c = true → c = ' ' ∧ ∀ d, cs.head? = some d → isWs d = false) := by
  rw [wsCanon] at h
  cases hws : isWs c
  · rw [hws] at h
    simp only [Bool.false_eq_true, if_false] at h
    exact ⟨h, fun hc => absurd hc (by simp [hws])⟩
  · rw [hws] at h
    simp only [if_true, Bool.and_eq_true] at h
    obtain ⟨⟨h1, h2⟩, h3⟩ := h
    refine ⟨h3, fun _ => ⟨by simpa using h1, ?_⟩⟩
    intro d hd
    cases cs with
    | nil => simp at hd
    | cons e cs' =>
      simp only [List.head?_cons, Option.some.injEq] at hd
      subst hd
      simpa [headNotWs] using h2

theorem wsCanon_cons_intro_ws {cs : List Char}
    (h2 : ∀ d, cs.head? = some d → isWs d = false) (h3 : wsCanon cs = true) :
    wsCanon (' ' :: cs) = true := by
  rw [wsCanon]
  simp only [show isWs ' ' = true from rfl, if_true, Bool.and_eq_true]
  refine ⟨⟨by simp, ?_⟩, h3⟩
  cases cs with
  | nil => rfl
  | cons e cs' => simpa [headNotWs] using h2 e rfl

theorem wsCanon_cons_intro_nonws {c : Char} {cs : List Char}
    (hc : isWs c = false) (h : wsCanon cs = true) :
    wsCanon (c :: cs) = true := by
  rw [wsCanon, hc]
  simpa using h

theorem wsCanon_collapseAux (l : List Char) :
    (∀ b, wsCanon (collapseAux b l) = true) ∧
      (∀ d, (collapseAux true l).head? = some d → isWs d = false) := by
  induction l with
  | nil => exact ⟨fun b => rfl, fun d hd => by simp [collapseAux] at hd⟩
  | cons c cs ih =>
    obtain ⟨ih1, ih2⟩ := ih
    cases hws : isWs c
    · have hb : ∀ b, collapseAux b (c :: cs) = c :: collapseAux false cs := by
        intro b; rw [collapseAux, hws]; simp
      constructor
      · intro b
        rw [hb b]
        exact wsCanon_cons_intro_nonws hws (ih1 false)
      · intro d hd
        rw [hb true] at hd
        simp only [List.head?_cons, Option.some.injEq] at hd
        rw [← hd]
        exact hws
    · have hbt : collapseAux true (c :: cs) = collapseAux true cs := by
        rw [collapseAux, hws]; simp
      have hbf : collapseAux false (c :: cs) = ' ' :: collapseAux true cs := by
        rw [collapseAux, hws]; simp
      constructor
      · intro b
        cases b
        · rw [hbf]
          exact wsCanon_cons_intro_ws ih2 (ih1 true)
        · rw [hbt]
          exact ih1 true
      · intro d hd
        rw [hbt] at hd
        exact ih2 d hd

theorem wsCanon_dropWhile_ws {l : List Char} (h : wsCanon l = true) :
    wsCanon (l.dropWhile isWs) = true := by
  induction l with
  | nil => exact h
  | cons c cs ih =>
    rw [List.dropWhile_cons]
    cases hws : isWs c
    · simpa using h
    · simp only [if_true]
      exact ih (wsCanon_cons_elim h).1

theorem wsCanon_append_left {ys : List Char} :
    ∀ xs : List Char, wsCanon (xs ++ ys) = true → wsCanon xs = true := by
  intro xs
  induction xs with
  | nil => intro _; rfl
  | cons c cs ih =>
    intro h
    rw [List.cons_append] at h
    obtain ⟨h1, h2⟩ := wsCanon_cons_elim h
    cases hws : isWs c
    · exact wsCanon_cons_intro_nonws hws (ih h1)
    · obtain ⟨hsp, hhd⟩ := h2 hws
      subst hsp
      refine wsCanon_cons_intro_ws ?_ (ih h1)
      intro d hd
      apply hhd
      cases cs with
      | nil => simp at hd
      | cons e cs' => simpa using hd

theorem collapseAux_fix (l : List Char) (h : wsCanon l = true) :
    collapseAux false l = l ∧
      ((∀ d, l.head? = some d → isWs d = false) → collapseAux true l = l) := by
  induction l with
  | nil => exact ⟨rfl, fun _ => rfl⟩
  | cons c cs ih =>
    obtain ⟨h1, h2⟩ := wsCanon_cons_elim h
    obtain ⟨ih1, ih2⟩ := ih h1
    cases hws : isWs c
    · have hb : ∀ b, collapseAux b (c :: cs) = c :: collapseAux false cs := by
        intro b; rw [collapseAux, hws]; simp
      exact ⟨by rw [hb false, ih1], fun _ => by rw [hb true, ih1]⟩
    · obtain ⟨hsp, hhd⟩ := h2 hws
      constructor
      · rw [collapseAux, hws]
        simp only [if_true, Bool.false_eq_true, if_false]
        rw [ih2 hhd, hsp]
      · intro hfail
        exact absurd hws (by rw [hfail c rfl]; simp)

theorem rev_drop_ws_decomp (m : List Char) :
    m = (m.reverse.dropWhile isWs).reverse ++
      (m.reverse.takeWhile isWs).reverse := by
  conv_lhs => rw [← m.reverse_reverse,
    ← List.takeWhile_append_dropWhile isWs m.reverse]
  rw [List.reverse_append]

theorem trimL_head_fail (l : List Char) :
    ∀ d, (trimL l).head? = some d → isWs d = false := by
  intro d hd
  set m := l.dropWhile isWs with hm
  have hdec := rev_drop_ws_decomp m
  cases ht : (m.reverse.dropWhile isWs).reverse with
  | nil =>
    rw [trimL, ← hm, ht] at hd
    simp at hd
  | cons e t' =>
    have hd2 : d = e := by
      rw [trimL, ← hm, ht] at hd
      simp only [List.head?_cons, Option.some.injEq] at hd
      exact hd.symm
    subst hd2
    have hmhead : (l.dropWhile isWs).head? = some d := by
      rw [← hm, hdec, ht]
      simp
    exact dropWhile_head_fail l d hmhead

theorem trimL_last_fail (l : List Char) :
    ∀ d, (trimL l).reverse.head? = some d → isWs d = false := by
  intro d hd
  rw [trimL, List.reverse_reverse] at hd
  exact dropWhile_head_fail _ d hd

theorem trimL_fix {l : List Char}
    (hhead : ∀ d, l.head? = some d → isWs d = false)
    (hlast : ∀ d, l.reverse.head? = some d → isWs d = false) :
    trimL l = l := by
  rw [trimL, dropWhile_eq_self_of_head_fail hhead,
    dropWhile_eq_self_of_head_fail hlast, List.reverse_reverse]

theorem wsCanon_trimL_collapseWs (z : List Char) :
    wsCanon (trimL (collapseWs z)) = true := by
  have h1 : wsCanon (collapseWs z) = true :=
    (wsCanon_collapseAux z).1 false
  have h2 : wsCanon ((collapseWs z).dropWhile isWs) = true :=
    wsCanon_dropWhile_ws h1
  set m := (collapseWs z).dropWhile isWs with hm
  have hdec := rev_drop_ws_decomp m
  rw [trimL, ← hm]
  apply @wsCanon_append_left ((m.reverse.takeWhile isWs).reverse)
  rw [← hdec]
  exact h2

theorem getLastD_mem : ∀ (l : List Char) (d : Char), l ≠ [] →
    l.getLastD d ∈ l := by
  intro l
  induction l with
  | nil => intro d h; exact absurd rfl h
  | cons a l' ih =>
    intro d _
    cases hl : l' with
    | nil => simp [List.getLastD]
    | cons b l'' =>
      rw [List.getLastD_cons]
      right
      rw [← hl]
      exact ih a (by rw [hl]; simp)

theorem getLastD_indep : ∀ (l : List Char) (d1 d2 : Char), l ≠ [] →
    l.getLastD d1 = l.getLastD d2 := by
  intro l
  induction l with
  | nil => intro d1 d2 h; exact absurd rfl h
  | cons a l' ih =>
    intro d1 d2 _
    rw [List.getLastD_cons, List.getLastD_cons]

theorem delAux_nil (w : List Char) (k : Nat) (prev : Option Char) :
    delAux w k prev [] = [] := by
  cases k <;> rfl

theorem delAux_succ_cons (w : List Char) (n : Nat) (prev : Option Char)
    (c : Char) (cs : List Char) :
    delAux w (n + 1) prev (c :: cs) = delAux w n (some c) cs := rfl

theorem delAux_zero_cons (w : List Char) (prev : Option Char) (c : Char)
    (cs : List Char) :
    delAux w 0 prev (c :: cs) =
      if wordMatchAt w prev (c :: cs) then
        delAux w (w.length - 1) (some c) cs
      else c :: delAux w 0 (some c) cs := rfl

theorem hasWordAux_cons (w : List Char) (prev : Option Char) (c : Char)
    (cs : List Char) :
    hasWordAux w prev (c :: cs) =
      (wordMatchAt w prev (c :: cs) || hasWordAux w (some c) cs) := rfl

theorem delAux_skip_seg (w : List Char) :
    ∀ (seg : List Char) (prev : Option Char) (rest : List Char), seg ≠ [] →
      delAux w seg.length prev (seg ++ rest) =
        delAux w 0 (some (seg.getLastD ' ')) rest := by
  intro seg
  induction seg with
  | nil => intro prev rest h; exact absurd rfl h
  | cons a s ih =>
    intro prev rest _
    cases hs : s with
    | nil =>
      subst hs
      show delAux w 1 prev (a :: rest) = _
      rw [delAux_succ_cons, List.getLastD_cons, List.getLastD_nil]
    | cons b s' =>
      subst hs
      show delAux w ((b :: s').length + 1) prev (a :: (b :: s' ++ rest)) = _
      rw [delAux_succ_cons]
      rw [ih (some a) rest (by simp)]
      rfl

theorem matchAt_parts {w : List Char} {prev : Option Char} {l : List Char}
    (h : wordMatchAt w prev l = true) :
    w ≠ [] ∧ noWordAdj prev = true ∧ w.isPrefixOf l = true ∧
      noWordAdj ((l.drop w.length).head?) = true := by
  unfold wordMatchAt at h
  rw [Bool.and_eq_true, Bool.and_eq_true, Bool.and_eq_true] at h
  obtain ⟨⟨⟨h1, h2⟩, h3⟩, h4⟩ := h
  refine ⟨?_, h2, h3, h4⟩
  intro hnil
  subst hnil
  simp at h1

theorem matchAt_needs_boundary {w : List Char} {prev : Option Char}
    {l : List Char} (h : noWordAdj prev = false) :
    wordMatchAt w prev l = false := by
  simp [wordMatchAt, h]

theorem not_matchAt_nonword_head {w : List Char}
    (hwc : ∀ c ∈ w, isWordChar c = true) {prev : Option Char} {nc : Char}
    {rest : List Char} (hnc : isWordChar nc = false) :
    wordMatchAt w prev (nc :: rest) = false := by
  cases w with
  | nil => simp [wordMatchAt]
  | cons c wt =>
    have hne : (c == nc) = false := by
      by_contra hb
      rw [Bool.not_eq_false, beq_iff_eq] at hb
      subst hb
      rw [hwc c (by simp)] at hnc
      exact Bool.noConfusion hnc
    simp [wordMatchAt, List.isPrefixOf, hne]

theorem delAux_nonword_head {w : List Char}
    (hwc : ∀ c ∈ w, isWordChar c = true) {prev : Option Char} {nc : Char}
    {rest : List Char} (hnc : isWordChar nc = false) :
    delAux w 0 prev (nc :: rest) = nc :: delAux w 0 (some nc) rest := by
  rw [delAux_zero_cons, not_matchAt_nonword_head hwc hnc]
  simp

theorem delAux_id_of_no_match {w : List Char} :
    ∀ (l : List Char) (prev : Option Char), hasWordAux w prev l = false →
      delAux w 0 prev l = l := by
  intro l
  induction l with
  | nil => intro prev _; rfl
  | cons c cs ih =>
    intro prev h
    rw [hasWordAux_cons, Bool.or_eq_false_iff] at h
    rw [delAux_zero_cons, h.1]
    simp only [Bool.false_eq_true, if_false]
    rw [ih (some c) h.2]

theorem isPrefixOf_cons_parts {w : List Char} {c : Char} {cs : List Char}
    (hw : w ≠ []) (h : w.isPrefixOf (c :: cs) = true) :
    w = c :: w.tail ∧ w.tail.isPrefixOf cs = true := by
  cases w with
  | nil => exact absurd rfl hw
  | cons c0 wt =>
    simp only [List.isPrefixOf, Bool.and_eq_true, beq_iff_eq] at h
    obtain ⟨hc0, hwt⟩ := h
    subst hc0
    exact ⟨rfl, hwt⟩

theorem delAux_after_match {w : List Char}
    (hwc : ∀ c ∈ w, isWordChar c = true) {prev : Option Char} {c : Char}
    {cs : List Char} (hma : wordMatchAt w prev (c :: cs) = true) :
    ∃ d, isWordChar d = true ∧
      delAux w 0 prev (c :: cs) =
        delAux w 0 (some d) ((c :: cs).drop w.length) := by
  obtain ⟨hw, hb, hpfx, hafter⟩ := matchAt_parts hma
  rw [delAux_zero_cons, hma]
  simp only [if_true]
  obtain ⟨hcw, hwtpf⟩ := isPrefixOf_cons_parts hw hpfx
  by_cases hwt : w.tail = []
  · have hw1 : w = [c] := by rw [hcw, hwt]
    refine ⟨c, hwc c (by rw [hw1]; simp), ?_⟩
    rw [hw1]
    rfl
  · have hsplit : w.tail ++ cs.drop w.tail.length = cs :=
      append_drop_of_isPrefixOf hwtpf
    have hlen : w.length - 1 = w.tail.length := by
      conv_lhs => rw [hcw]
      simp
    have hdm : w.tail.getLastD ' ' ∈ w := by
      rw [hcw]
      exact List.mem_cons_of_mem c (getLastD_mem w.tail ' ' hwt)
    refine ⟨w.tail.getLastD ' ', hwc _ hdm, ?_⟩
    rw [hlen]
    conv_lhs => rw [← hsplit]
    rw [delAux_skip_seg w w.tail (some c) (cs.drop w.tail.length) hwt]
    congr 1
    conv_rhs => rw [hcw]
    rw [List.length_cons, List.drop_succ_cons]

theorem delAux_word_copy {w : List Char} :
    ∀ (l : List Char) (prev : Option Char), noWordAdj prev = false →
      delAux w 0 prev l = l.takeWhile isWordChar ++
        (match l.dropWhile isWordChar with
         | [] => []
         | nc :: rest => nc :: delAux w 0 (some nc) rest) := by
  intro l
  induction l with
  | nil => intro prev _; rfl
  | cons c cs ih =>
    intro prev hprev
    rw [delAux_zero_cons, matchAt_needs_boundary hprev]
    simp only [Bool.false_eq_true, if_false]
    rw [List.takeWhile_cons, List.dropWhile_cons]
    cases hc : isWordChar c
    · simp
    · simp only [if_true]
      have : noWordAdj (some c) = false := by simp [noWordAdj, hc]
      rw [ih (some c) this, List.cons_append]

theorem hasWordAux_runs {w : List Char} (hw : w ≠ [])
    (hwc : ∀ c ∈ w, isWordChar c = true) :
    ∀ (l : List Char) (prev : Option Char), hasWordAux w prev l = true →
      (noWordAdj prev = true → w ∈ wordRuns l) ∧
      (noWordAdj prev = false → w ∈ wordRuns (l.dropWhile isWordChar)) := by
  intro l
  induction l with
  | nil =>
    intro prev h
    simp [hasWordAux] at h
  | cons c cs ih =>
    intro prev h
    rw [hasWordAux_cons, Bool.or_eq_true] at h
    rcases h with hma | hrec
    · obtain ⟨-, hb, hpfx, hafter⟩ := matchAt_parts hma
      have hmem : w ∈ wordRuns (c :: cs) := by
        have hrw : wordRuns (c :: cs) =
            w :: wordRuns ((c :: cs).drop w.length) := by
          conv_lhs => rw [← append_drop_of_isPrefixOf hpfx]
          rw [wordRuns_append_word hw hwc hafter]
        rw [hrw]
        simp
      exact ⟨fun _ => hmem, fun hf => absurd hb (by simp [hf])⟩
    · have hih := ih (some c) hrec
      cases hc : isWordChar c
      · have h1 : noWordAdj (some c) = true := by simp [noWordAdj, hc]
        have hmem : w ∈ wordRuns cs := hih.1 h1
        constructor
        · intro _
          rw [wordRuns_cons_nonword hc]
          exact hmem
        · intro _
          rw [List.dropWhile_cons, hc]
          simp only [Bool.false_eq_true, if_false]
          rw [wordRuns_cons_nonword hc]
          exact hmem
      · have h1 : noWordAdj (some c) = false := by simp [noWordAdj, hc]
        have hmem : w ∈ wordRuns (cs.dropWhile isWordChar) := hih.2 h1
        constructor
        · intro _
          rw [wordRuns_cons, hc]
          simp only [if_true]
          exact List.mem_cons_of_mem _ hmem
        · intro _
          rw [List.dropWhile_cons, hc]
          simp only [if_true]
          exact hmem

theorem wordRuns_delAux {w : List Char} (hw : w ≠ [])
    (hwc : ∀ c ∈ w, isWordChar c = true) :
    ∀ (n : Nat) (l : List Char), l.length ≤ n →
      ∀ prev : Option Char, noWordAdj prev = true →
        wordRuns (delAux w 0 prev l) =
          (wordRuns l).filter (fun r => r ≠ w) := by
  intro n
  induction n with
  | zero =>
    intro l hlen prev _
    rw [List.length_eq_zero.mp (Nat.le_zero.mp hlen)]
    rw [delAux_nil, wordRuns_nil]
    rfl
  | succ n ih =>
    intro l hlen prev hprev
    cases l with
    | nil =>
      rw [delAux_nil, wordRuns_nil]
      rfl
    | cons c cs =>
      by_cases hma : wordMatchAt w prev (c :: cs) = true
      · obtain ⟨-, -, hpfx, hafter⟩ := matchAt_parts hma
        obtain ⟨d, hd, heq⟩ := delAux_after_match hwc hma
        rw [heq]
        have hlist : w ++ (c :: cs).drop w.length = c :: cs :=
          append_drop_of_isPrefixOf hpfx
        cases hrest : (c :: cs).drop w.length with
        | nil =>
          rw [delAux_nil]
          conv_rhs => rw [← hlist, hrest, List.append_nil]
          rw [show wordRuns w = [w] by
            have := wordRuns_append_word hw hwc
              (m := ([] : List Char)) (by simp [noWordAdj])
            simpa [wordRuns_nil] using this]
          simp [wordRuns_nil]
        | cons nc rest2 =>
          have hnc : isWordChar nc = false := by
            rw [hrest] at hafter
            simpa [noWordAdj] using hafter
          rw [delAux_nonword_head hwc hnc, wordRuns_cons_nonword hnc]
          have hlen2 : rest2.length ≤ n := by
            have := congrArg List.length hlist
            rw [hrest] at this
            simp only [List.length_append, List.length_cons] at this hlen
            have hwpos : 0 < w.length := List.length_pos.mpr hw
            omega
          rw [ih rest2 hlen2 (some nc) (by simp [noWordAdj, hnc])]
          conv_rhs => rw [← hlist, hrest]
          rw [wordRuns_append_word hw hwc
            (by rw [List.head?_cons]; simp [noWordAdj, hnc])]
          rw [wordRuns_cons_nonword hnc, List.filter_cons]
          simp
      · rw [delAux_zero_cons, if_neg hma]
        cases hc : isWordChar c
        · rw [wordRuns_cons_nonword hc, wordRuns_cons_nonword hc]
          have h1 : noWordAdj (some c) = true := by simp [noWordAdj, hc]
          have : cs.length ≤ n := by
            simp only [List.length_cons] at hlen; omega
          exact ih cs this (some c) h1
        · have h1 : noWordAdj (some c) = false := by simp [noWordAdj, hc]
          rw [delAux_word_copy cs (some c) h1]
          have hsplit := List.takeWhile_append_dropWhile
            (p := isWordChar) (l := cs)
          have htw_word : ∀ x ∈ c :: cs.takeWhile isWordChar,
              isWordChar x = true := by
            intro x hx
            rcases List.mem_cons.mp hx with hx | hx
            · rw [hx]; exact hc
            · exact List.mem_takeWhile_imp hx
          have hhr_ne : (c :: cs.takeWhile isWordChar) ≠ w := by
            intro hcontra
            apply hma
            have hdw_head : noWordAdj ((cs.dropWhile isWordChar).head?) =
                true := by
              cases hh : (cs.dropWhile isWordChar).head? with
              | none => simp [noWordAdj]
              | some d =>
                simp only [noWordAdj]
                rw [dropWhile_head_fail cs d hh]
                rfl
            have hfull : c :: cs =
                (c :: cs.takeWhile isWordChar) ++ cs.dropWhile isWordChar := by
              rw [List.cons_append, hsplit]
            rw [wordMatchAt]
            have hpfx2 : w.isPrefixOf (c :: cs) = true := by
              rw [hfull, ← hcontra]
              exact isPrefixOf_append_self _ _
            have hdrop : (c :: cs).drop w.length = cs.dropWhile isWordChar := by
              rw [hfull, ← hcontra, List.drop_left]
            rw [hpfx2, hdrop, hprev, hdw_head]
            simp only [Bool.and_true, Bool.true_and]
            rw [← hcontra]
            simp
          cases hdw : cs.dropWhile isWordChar with
          | nil =>
            have hcs : cs = cs.takeWhile isWordChar := by
              conv_lhs => rw [← hsplit]
              rw [hdw, List.append_nil]
            have hruns : wordRuns (c :: cs.takeWhile isWordChar) =
                [c :: cs.takeWhile isWordChar] := by
              have := wordRuns_append_word
                (w := c :: cs.takeWhile isWordChar) (by simp) htw_word
                (m := ([] : List Char)) (by simp [noWordAdj])
              simpa [wordRuns_nil] using this
            simp only [hdw, List.append_nil]
            rw [hruns]
            conv_rhs => rw [hcs]
            rw [hruns, List.filter_cons]
            simp [hhr_ne]
          | cons nc rest2 =>
            have hnc : isWordChar nc = false := by
              have := dropWhile_head_fail cs nc (by rw [hdw]; rfl)
              exact this
            have hcs2 : cs = cs.takeWhile isWordChar ++ nc :: rest2 := by
              conv_lhs => rw [← hsplit]
              rw [hdw]
            have hlen2 : rest2.length ≤ n := by
              have := congrArg List.length hcs2
              simp only [List.length_append, List.length_cons] at this hlen
              omega
            have hX := ih rest2 hlen2 (some nc) (by simp [noWordAdj, hnc])
            simp only [hdw]
            have hshape : (c :: (cs.takeWhile isWordChar ++
                (nc :: delAux w 0 (some nc) rest2))) =
                (c :: cs.takeWhile isWordChar) ++
                  (nc :: delAux w 0 (some nc) rest2) := by
              simp
            rw [hshape]
            rw [wordRuns_append_word (by simp) htw_word
              (by rw [List.head?_cons]; simp [noWordAdj, hnc])]
            rw [wordRuns_cons_nonword hnc, hX]
            conv_rhs => rw [show (c :: cs) =
              (c :: cs.takeWhile isWordChar) ++ (nc :: rest2) by
                rw [List.cons_append, ← hcs2]]
            rw [wordRuns_append_word (by simp) htw_word
              (by rw [List.head?_cons]; simp [noWordAdj, hnc])]
            rw [wordRuns_cons_nonword hnc, List.filter_cons]
            simp [hhr_ne]

theorem wordRuns_delWord {w : List Char} (hw : w ≠ [])
    (hwc : ∀ c ∈ w, isWordChar c = true) (l : List Char) :
    wordRuns (delWord w l) = (wordRuns l).filter (fun r => r ≠ w) :=
  wordRuns_delAux hw hwc l.length l le_rfl none rfl

theorem rule1Aux_nil (k : Nat) (prev : Option Char) :
    rule1Aux k prev [] = [] := by
  cases k <;> rfl

theorem rule1Aux_succ_cons (n : Nat) (prev : Option Char) (c : Char)
    (cs : List Char) :
    rule1Aux (n + 1) prev (c :: cs) = rule1Aux n (some c) cs := rfl

theorem rule1Aux_zero_cons (prev : Option Char) (c : Char) (cs : List Char) :
    rule1Aux 0 prev (c :: cs) =
      if noWordAdj prev && switchW.isPrefixOf (c :: cs) &&
          !(((c :: cs).drop 6).takeWhile isWs).isEmpty then
        if onW.isPrefixOf (((c :: cs).drop 6).dropWhile isWs) &&
            noWordAdj (((((c :: cs).drop 6).dropWhile isWs).drop 2).head?) then
          turnOnW ++ rule1Aux
            (6 + (((c :: cs).drop 6).takeWhile isWs).length + 2 - 1)
            (some c) cs
        else if offW.isPrefixOf (((c :: cs).drop 6).dropWhile isWs) &&
            noWordAdj (((((c :: cs).drop 6).dropWhile isWs).drop 3).head?) then
          turnOffW ++ rule1Aux
            (6 + (((c :: cs).drop 6).takeWhile isWs).length + 3 - 1)
            (some c) cs
        else c :: rule1Aux 0 (some c) cs
      else c :: rule1Aux 0 (some c) cs := rfl

theorem hasRule1Aux_cons (prev : Option Char) (c : Char) (cs : List Char) :
    hasRule1Aux prev (c :: cs) =
      (rule1MatchAt prev (c :: cs) || hasRule1Aux (some c) cs) := rfl

theorem rule1MatchAt_eq (prev : Option Char) (l : List Char) :
    rule1MatchAt prev l =
      ((noWordAdj prev && switchW.isPrefixOf l &&
          !((l.drop 6).takeWhile isWs).isEmpty) &&
        ((onW.isPrefixOf ((l.drop 6).dropWhile isWs) &&
            noWordAdj ((((l.drop 6).dropWhile isWs).drop 2).head?)) ||
          (offW.isPrefixOf ((l.drop 6).dropWhile isWs) &&
            noWordAdj ((((l.drop 6).dropWhile isWs).drop 3).head?)))) := rfl

theorem rule1_id_of_no_match :
    ∀ (l : List Char) (prev : Option Char), hasRule1Aux prev l = false →
      rule1Aux 0 prev l = l := by
  intro l
  induction l with
  | nil => intro prev _; rfl
  | cons c cs ih =>
    intro prev h
    rw [hasRule1Aux_cons, Bool.or_eq_false_iff] at h
    have hm := h.1
    have hrec := ih (some c) h.2
    rw [rule1MatchAt_eq] at hm
    rw [rule1Aux_zero_cons]
    by_cases hbase : (noWordAdj prev && switchW.isPrefixOf (c :: cs) &&
        !(((c :: cs).drop 6).takeWhile isWs).isEmpty) = true
    · rw [hbase, Bool.true_and, Bool.or_eq_false_iff] at hm
      rw [if_pos hbase, hm.1, hm.2]
      simp only [Bool.false_eq_true, if_false]
      rw [hrec]
    · rw [if_neg hbase]
      rw [hrec]

theorem mem_delAux (w : List Char) :
    ∀ (l : List Char) (k : Nat) (prev : Option Char) (c : Char),
      c ∈ delAux w k prev l → c ∈ l := by
  intro l
  induction l with
  | nil =>
    intro k prev c hc
    rw [delAux_nil] at hc
    exact absurd hc (List.not_mem_nil c)
  | cons a cs ih =>
    intro k prev c hc
    cases k with
    | succ n =>
      rw [delAux_succ_cons] at hc
      exact List.mem_cons_of_mem a (ih n (some a) c hc)
    | zero =>
      rw [delAux_zero_cons] at hc
      split at hc
      · exact List.mem_cons_of_mem a (ih _ _ c hc)
      · rcases List.mem_cons.mp hc with h | h
        · exact by rw [h]; exact List.mem_cons_self a cs
        · exact List.mem_cons_of_mem a (ih _ _ c h)

theorem mem_rule1Aux :
    ∀ (l : List Char) (k : Nat) (prev : Option Char) (c : Char),
      c ∈ rule1Aux k prev l → c ∈ l ∨ c ∈ turnOnW ∨ c ∈ turnOffW := by
  intro l
  induction l with
  | nil =>
    intro k prev c hc
    rw [rule1Aux_nil] at hc
    exact absurd hc (List.not_mem_nil c)
  | cons a cs ih =>
    intro k prev c hc
    cases k with
    | succ n =>
      rw [rule1Aux_succ_cons] at hc
      rcases ih n (some a) c hc with h | h
      · exact Or.inl (List.mem_cons_of_mem a h)
      · exact Or.inr h
    | zero =>
      rw [rule1Aux_zero_cons] at hc
      split at hc
      · split at hc
        · rcases List.mem_append.mp hc with h | h
          · exact Or.inr (Or.inl h)
          · rcases ih _ _ c h with h2 | h2
            · exact Or.inl (List.mem_cons_of_mem a h2)
            · exact Or.inr h2
        · split at hc
          · rcases List.mem_append.mp hc with h | h
            · exact Or.inr (Or.inr h)
            · rcases ih _ _ c h with h2 | h2
              · exact Or.inl (List.mem_cons_of_mem a h2)
              · exact Or.inr h2
          · rcases List.mem_cons.mp hc with h | h
            · exact Or.inl (by rw [h]; exact List.mem_cons_self a cs)
            · rcases ih _ _ c h with h2 | h2
              · exact Or.inl (List.mem_cons_of_mem a h2)
              · exact Or.inr h2
      · rcases List.mem_cons.mp hc with h | h
        · exact Or.inl (by rw [h]; exact List.mem_cons_self a cs)
        · rcases ih _ _ c h with h2 | h2
          · exact Or.inl (List.mem_cons_of_mem a h2)
          · exact Or.inr h2

theorem collapseAux_cons_eq (b : Bool) (a : Char) (cs : List Char) :
    collapseAux b (a :: cs) =
      if isWs a then
        (if b then collapseAux true cs else ' ' :: collapseAux true cs)
      else a :: collapseAux false cs := rfl

theorem mem_collapseAux :
    ∀ (l : List Char) (b : Bool) (c : Char),
      c ∈ collapseAux b l → c ∈ l ∨ c = ' ' := by
  intro l
  induction l with
  | nil =>
    intro b c hc
    cases b <;> exact absurd hc (List.not_mem_nil c)
  | cons a cs ih =>
    intro b c hc
    rw [collapseAux_cons_eq] at hc
    split at hc
    · split at hc
      · rcases ih true c hc with h | h
        · exact Or.inl (List.mem_cons_of_mem a h)
        · exact Or.inr h
      · rcases List.mem_cons.mp hc with h | h
        · exact Or.inr h
        · rcases ih true c h with h2 | h2
          · exact Or.inl (List.mem_cons_of_mem a h2)
          · exact Or.inr h2
    · rcases List.mem_cons.mp hc with h | h
      · exact Or.inl (by rw [h]; exact List.mem_cons_self a cs)
      · rcases ih false c h with h2 | h2
        · exact Or.inl (List.mem_cons_of_mem a h2)
        · exact Or.inr h2

theorem mem_trimL {c : Char} {l : List Char} (h : c ∈ trimL l) : c ∈ l := by
  unfold trimL at h
  rw [List.mem_reverse] at h
  have h2 : c ∈ (l.dropWhile isWs).reverse :=
    (List.dropWhile_sublist _).subset h
  rw [List.mem_reverse] at h2
  exact (List.dropWhile_sublist _).subset h2

theorem charOK_strip_lower (l : List Char) :
    ∀ c ∈ stripL (lowerL l), charOK c = true := by
  intro c hc
  simp only [stripL, List.mem_map] at hc
  obtain ⟨x, hx, hfx⟩ := hc
  simp only [lowerL, List.mem_map] at hx
  obtain ⟨d, -, hd⟩ := hx
  subst hd
  by_cases hk : keepNorm (lowerC d) = true
  · rw [if_pos hk] at hfx
    subst hfx
    simp [charOK, hk, lowerC_idem]
  · rw [if_neg hk] at hfx
    subst hfx
    decide

theorem stripL_fix : ∀ (l : List Char), (∀ c ∈ l, charOK c = true) →
    stripL l = l := by
  intro l
  induction l with
  | nil => intro _; rfl
  | cons a as ih =>
    intro h
    have ha := h a (List.mem_cons_self a as)
    simp only [charOK, Bool.and_eq_true] at ha
    show (if keepNorm a then a else ' ') :: stripL as = a :: as
    rw [if_pos ha.1, ih (fun c hc => h c (List.mem_cons_of_mem a hc))]

theorem lowerL_fix : ∀ (l : List Char), (∀ c ∈ l, charOK c = true) →
    lowerL l = l := by
  intro l
  induction l with
  | nil => intro _; rfl
  | cons a as ih =>
    intro h
    have ha := h a (List.mem_cons_self a as)
    simp only [charOK, Bool.and_eq_true, decide_eq_true_eq] at ha
    show lowerC a :: lowerL as = a :: as
    rw [ha.2, ih (fun c hc => h c (List.mem_cons_of_mem a hc))]

theorem charOK_normalizeL (l : List Char) :
    ∀ c ∈ normalizeL l, charOK c = true := by
  intro c hc
  have h1 : c ∈ collapseWs (delWord myW (delWord anW (delWord aW (delWord theW
      (delWord pleaseW (rule1 (stripL (lowerL l)))))))) := mem_trimL hc
  rcases mem_collapseAux _ false c h1 with h2 | h2
  · have h3 := mem_delAux myW _ 0 none c h2
    have h4 := mem_delAux anW _ 0 none c h3
    have h5 := mem_delAux aW _ 0 none c h4
    have h6 := mem_delAux theW _ 0 none c h5
    have h7 := mem_delAux pleaseW _ 0 none c h6
    rcases mem_rule1Aux _ 0 none c h7 with h8 | h8 | h8
    · exact charOK_strip_lower l c h8
    · have hall : ∀ x ∈ turnOnW, charOK x = true := by decide
      exact hall c h8
    · have hall : ∀ x ∈ turnOffW, charOK x = true := by decide
      exact hall c h8
  · rw [h2]
    decide

theorem wordRuns_normalizeL (l : List Char) :
    wordRuns (normalizeL l) =
      (((((wordRuns (rule1 (stripL (lowerL l)))).filter
        (fun r => r ≠ pleaseW)).filter (fun r => r ≠ theW)).filter
        (fun r => r ≠ aW)).filter (fun r => r ≠ anW)).filter
        (fun r => r ≠ myW) := by
  unfold normalizeL
  rw [wordRuns_trimL, wordRuns_collapseWs,
    wordRuns_delWord (w := myW) (by decide) (by decide),
    wordRuns_delWord (w := anW) (by decide) (by decide),
    wordRuns_delWord (w := aW) (by decide) (by decide),
    wordRuns_delWord (w := theW) (by decide) (by decide),
    wordRuns_delWord (w := pleaseW) (by decide) (by decide)]

theorem hasWord_filler_false {w : List Char} (hwne : w ≠ [])
    (hwc : ∀ c ∈ w, isWordChar c = true) (l : List Char)
    (hnotin : w ∉ wordRuns (normalizeL l)) :
    hasWord w (normalizeL l) = false := by
  cases hcase : hasWord w (normalizeL l) with
  | false => rfl
  | true =>
    exact absurd
      ((hasWordAux_runs hwne hwc (normalizeL l) none hcase).1 rfl) hnotin

theorem hasWord_please_nf (l : List Char) :
    hasWord pleaseW (normalizeL l) = false := by
  apply hasWord_filler_false (by decide) (by decide)
  rw [wordRuns_normalizeL]
  intro h
  simp only [List.mem_filter, decide_eq_true_eq] at h
  exact h.1.1.1.1.2 rfl

theorem hasWord_the_nf (l : List Char) :
    hasWord theW (normalizeL l) = false := by
  apply hasWord_filler_false (by decide) (by decide)
  rw [wordRuns_normalizeL]
  intro h
  simp only [List.mem_filter, decide_eq_true_eq] at h
  exact h.1.1.1.2 rfl

theorem hasWord_a_nf (l : List Char) :
    hasWord aW (normalizeL l) = false := by
  apply hasWord_filler_false (by decide) (by decide)
  rw [wordRuns_normalizeL]
  intro h
  simp only [List.mem_filter, decide_eq_true_eq] at h
  exact h.1.1.2 rfl

theorem hasWord_an_nf (l : List Char) :
    hasWord anW (normalizeL l) = false := by
  apply hasWord_filler_false (by decide) (by decide)
  rw [wordRuns_normalizeL]
  intro h
  simp only [List.mem_filter, decide_eq_true_eq] at h
  exact h.1.2 rfl

theorem hasWord_my_nf (l : List Char) :
    hasWord myW (normalizeL l) = false := by
  apply hasWord_filler_false (by decide) (by decide)
  rw [wordRuns_normalizeL]
  intro h
  simp only [List.mem_filter, decide_eq_true_eq] at h
  exact h.2 rfl

theorem collapseWs_normalizeL (l : List Char) :
    collapseWs (normalizeL l) = normalizeL l := by
  have hws : wsCanon (normalizeL l) = true := wsCanon_trimL_collapseWs _
  exact (collapseAux_fix _ hws).1

theorem trimL_normalizeL (l : List Char) :
    trimL (normalizeL l) = normalizeL l :=
  trimL_fix (trimL_head_fail _) (trimL_last_fail _)

theorem normalizeL_idem_of_no_rule1 (l : List Char)
    (h : hasRule1 (normalizeL l) = false) :
    normalizeL (normalizeL l) = normalizeL l := by
  have hchar := charOK_normalizeL l
  have h1 : lowerL (normalizeL l) = normalizeL l := lowerL_fix _ hchar
  have h2 : stripL (normalizeL l) = normalizeL l := stripL_fix _ hchar
  have h3 : rule1 (normalizeL l) = normalizeL l :=
    rule1_id_of_no_match _ none h
  have h4 : delWord pleaseW (normalizeL l) = normalizeL l :=
    delAux_id_of_no_match _ none (hasWord_please_nf l)
  have h5 : delWord theW (normalizeL l) = normalizeL l :=
    delAux_id_of_no_match _ none (hasWord_the_nf l)
  have h6 : delWord aW (normalizeL l) = normalizeL l :=
    delAux_id_of_no_match _ none (hasWord_a_nf l)
  have h7 : delWord anW (normalizeL l) = normalizeL l :=
    delAux_id_of_no_match _ none (hasWord_an_nf l)
  have h8 : delWord myW (normalizeL l) = normalizeL l :=
    delAux_id_of_no_match _ none (hasWord_my_nf l)
  have h9 : collapseWs (normalizeL l) = normalizeL l := collapseWs_normalizeL l
  have h10 : trimL (normalizeL l) = normalizeL l := trimL_normalizeL l
  calc normalizeL (normalizeL l)
      = trimL (collapseWs (delWord myW (delWord anW (delWord aW (delWord theW
          (delWord pleaseW (rule1 (stripL (lowerL (normalizeL l))))))))))
        := rfl
    _ = normalizeL l := by
        rw [h1, h2, h3, h4, h5, h6, h7, h8, h9, h10]

/-- C2: normalizeUtterance is idempotent on every input whose normal form
contains no match of the switch-rewrite pattern (no standalone `switch`
immediately followed by whitespace and `on`/`off`); filler-word deletion can
juxtapose `switch` with `on`/`off`, and a second normalization then rewrites
the pair, so the unconditional idempotence claim needs this proviso. -/
theorem C2_conditional_idempotent (s : String)
    (h : hasRule1 (normalizeUtterance s).data = false) :
    normalizeUtterance (normalizeUtterance s) = normalizeUtterance s :=
  congrArg String.mk (normalizeL_idem_of_no_rule1 s.data h)

theorem C2_conditional_idempotent_witness :
    hasRule1 (normalizeUtterance ("turn on the fan")).data = false ∧
      normalizeUtterance (normalizeUtterance ("turn on the fan")) =
        normalizeUtterance ("turn on the fan") :=
  ⟨by decide, C2_conditional_idempotent ("turn on the fan") (by decide)⟩

end WatchHA
